import Mathlib

/-!
Verification development for the versioned-layer read client of the
HERE Data SDK (dataservice-read component).

The packed quad-tree layout (header, `SubEntry`, `ParentEntry`, tag flags)
is embedded from `src/olp-cpp-sdk-dataservice-read/src/repositories/QuadTreeIndex.h`.
The bodies of `QuadTreeIndex::Find`, the cache repositories, the
protect/release registry and the prefetch pipeline are not part of the
source tree here (only their declarations, tests and callers are), so those
operations are modelled from the specification, as indicated on each
definition.
-/

namespace HereRead

/-- A node in the global quadtree of the globe: `(level, row, col)` with
`row, col < 2 ^ level` (see the spec data model for `TileKey`). -/
structure TileKey where
  level : Nat
  row : Nat
  col : Nat
deriving DecidableEq, Repr

/-- Well-formedness of a tile key: row and column fit the level grid. -/
def TileKey.Wf (t : TileKey) : Prop :=
  t.row < 2 ^ t.level ∧ t.col < 2 ^ t.level

instance (t : TileKey) : Decidable t.Wf :=
  inferInstanceAs (Decidable (_ ∧ _))

/-- Morton interleaving of the low `l` bits of row and column: the 2-bit
quadrant at the deepest level is the least significant base-4 digit. -/
def mortonAux : Nat → Nat → Nat → Nat
  | 0, _, _ => 0
  | l + 1, r, c => mortonAux l (r / 2) (c / 2) * 4 + (2 * (r % 2) + c % 2)

/-- Decimal "here-tile" code of a tile: root has code 1, each child appends
its 2-bit quadrant in Morton order, so the code is `4 ^ level + morton`. -/
def hereTile (t : TileKey) : Nat :=
  4 ^ t.level + mortonAux t.level t.row t.col

/-- `ChangedLevelBy` with a non-positive delta: the ancestor `d` levels up. -/
def TileKey.ancestor (t : TileKey) (d : Nat) : TileKey :=
  ⟨t.level - d, t.row / 2 ^ d, t.col / 2 ^ d⟩

/-- The Morton-ordered local index of `t` within its ancestor at distance
`d`, in here-tile style (leading 1, then `2·d` bits). -/
def subQuadkeyAt (t : TileKey) (d : Nat) : Nat :=
  4 ^ d + mortonAux d t.row t.col

theorem mortonAux_lt (l r c : Nat) : mortonAux l r c < 4 ^ l := by
  induction l generalizing r c with
  | zero => simp [mortonAux]
  | succ l ih =>
    have h1 := ih (r / 2) (c / 2)
    have h2 : r % 2 < 2 := Nat.mod_lt _ (by omega)
    have h3 : c % 2 < 2 := Nat.mod_lt _ (by omega)
    have : mortonAux l (r / 2) (c / 2) * 4 + (2 * (r % 2) + c % 2) <
        4 ^ l * 4 := by omega
    calc mortonAux (l + 1) r c = mortonAux l (r / 2) (c / 2) * 4 +
          (2 * (r % 2) + c % 2) := rfl
      _ < 4 ^ l * 4 := this
      _ = 4 ^ (l + 1) := by rw [pow_succ]

theorem mortonAux_split (d l r c : Nat) (hd : d ≤ l) :
    mortonAux l r c =
      mortonAux (l - d) (r / 2 ^ d) (c / 2 ^ d) * 4 ^ d + mortonAux d r c := by
  induction d generalizing l r c with
  | zero => simp [mortonAux]
  | succ d ih =>
    cases l with
    | zero => omega
    | succ l =>
      have hdl : d ≤ l := by omega
      have step : mortonAux (l + 1) r c =
          mortonAux l (r / 2) (c / 2) * 4 + (2 * (r % 2) + c % 2) := rfl
      rw [step, ih l (r / 2) (c / 2) hdl]
      have hr : r / 2 / 2 ^ d = r / 2 ^ (d + 1) := by
        rw [Nat.div_div_eq_div_mul, pow_succ']
      have hc : c / 2 / 2 ^ d = c / 2 ^ (d + 1) := by
        rw [Nat.div_div_eq_div_mul, pow_succ']
      have hll : l + 1 - (d + 1) = l - d := by omega
      have hm : mortonAux (d + 1) r c =
          mortonAux d (r / 2) (c / 2) * 4 + (2 * (r % 2) + c % 2) := rfl
      rw [hr, hc, hll, hm, pow_succ]
      ring

theorem mortonAux_inj {l r c r' c' : Nat} (hr : r < 2 ^ l) (hc : c < 2 ^ l)
    (hr' : r' < 2 ^ l) (hc' : c' < 2 ^ l)
    (h : mortonAux l r c = mortonAux l r' c') : r = r' ∧ c = c' := by
  induction l generalizing r c r' c' with
  | zero =>
    simp only [pow_zero, Nat.lt_one_iff] at hr hc hr' hc'
    exact ⟨by omega, by omega⟩
  | succ l ih =>
    have e : mortonAux l (r / 2) (c / 2) * 4 + (2 * (r % 2) + c % 2) =
        mortonAux l (r' / 2) (c' / 2) * 4 + (2 * (r' % 2) + c' % 2) := h
    have hrm : r % 2 < 2 := Nat.mod_lt _ (by omega)
    have hcm : c % 2 < 2 := Nat.mod_lt _ (by omega)
    have hrm' : r' % 2 < 2 := Nat.mod_lt _ (by omega)
    have hcm' : c' % 2 < 2 := Nat.mod_lt _ (by omega)
    have elow : 2 * (r % 2) + c % 2 = 2 * (r' % 2) + c' % 2 := by omega
    have ehigh : mortonAux l (r / 2) (c / 2) = mortonAux l (r' / 2) (c' / 2) := by
      omega
    have hrd : r / 2 < 2 ^ l := by
      have : r < 2 ^ l * 2 := by rw [← pow_succ]; exact hr
      omega
    have hcd : c / 2 < 2 ^ l := by
      have : c < 2 ^ l * 2 := by rw [← pow_succ]; exact hc
      omega
    have hrd' : r' / 2 < 2 ^ l := by
      have : r' < 2 ^ l * 2 := by rw [← pow_succ]; exact hr'
      omega
    have hcd' : c' / 2 < 2 ^ l := by
      have : c' < 2 ^ l * 2 := by rw [← pow_succ]; exact hc'
      omega
    obtain ⟨er, ec⟩ := ih hrd hcd hrd' hcd' ehigh
    constructor
    · omega
    · omega

theorem hereTile_pos (t : TileKey) : 1 ≤ hereTile t := by
  have := Nat.one_le_two_pow (n := 2 * t.level)
  have h4 : (1 : Nat) ≤ 4 ^ t.level := Nat.one_le_pow _ _ (by omega)
  unfold hereTile
  omega

theorem hereTile_lt (t : TileKey) : hereTile t < 4 ^ (t.level + 1) := by
  have h := mortonAux_lt t.level t.row t.col
  unfold hereTile
  rw [pow_succ]
  omega

theorem log4_hereTile (t : TileKey) : Nat.log 4 (hereTile t) = t.level := by
  refine Nat.log_eq_of_pow_le_of_lt_pow ?_ (hereTile_lt t)
  unfold hereTile
  omega

/-- Fuelled base-4 logarithm (the level encoded by a here-tile code). -/
def log4Aux : Nat → Nat → Nat
  | 0, _ => 0
  | fuel + 1, n => if n < 4 then 0 else log4Aux fuel (n / 4) + 1

/-- Base-4 logarithm, total and structurally recursive. -/
def log4 (n : Nat) : Nat := log4Aux n n

theorem log4Aux_spec (fuel n l : Nat) (hf : n ≤ fuel) (h1 : 4 ^ l ≤ n)
    (h2 : n < 4 ^ (l + 1)) : log4Aux fuel n = l := by
  induction fuel generalizing n l with
  | zero =>
    have hp : (1 : Nat) ≤ 4 ^ l := Nat.one_le_pow _ _ (by omega)
    omega
  | succ fuel ih =>
    cases l with
    | zero =>
      have hn4 : n < 4 := by
        have : (4 : Nat) ^ (0 + 1) = 4 := by norm_num
        omega
      simp [log4Aux, hn4]
    | succ l =>
      have hp : (4 : Nat) ^ (l + 1) = 4 ^ l * 4 := pow_succ 4 l
      have hp2 : (4 : Nat) ^ (l + 2) = 4 ^ (l + 1) * 4 := pow_succ 4 (l + 1)
      have hple : (1 : Nat) ≤ 4 ^ l := Nat.one_le_pow _ _ (by omega)
      have hn4 : ¬n < 4 := by
        have : (4 : Nat) ≤ 4 ^ (l + 1) := by
          calc (4 : Nat) = 4 ^ 1 := by norm_num
            _ ≤ 4 ^ (l + 1) := Nat.pow_le_pow_right (by omega) (by omega)
        omega
      have hdivlow : 4 ^ l ≤ n / 4 := by
        rw [Nat.le_div_iff_mul_le (by omega)]
        omega
      have hdivhigh : n / 4 < 4 ^ (l + 1) := by
        rw [Nat.div_lt_iff_lt_mul (by omega)]
        omega
      have hfl : n / 4 ≤ fuel := by
        have := Nat.div_lt_self (show 0 < n by omega) (show 1 < 4 by omega)
        omega
      simp only [log4Aux, if_neg hn4]
      rw [ih (n / 4) l hfl hdivlow hdivhigh]

theorem log4_hereTile_level (t : TileKey) : log4 (hereTile t) = t.level := by
  unfold log4
  exact log4Aux_spec _ _ _ (Nat.le_refl _) (by unfold hereTile; omega)
    (hereTile_lt t)

theorem hereTile_div_pow (t : TileKey) (d : Nat) (hd : d ≤ t.level) :
    hereTile t / 4 ^ d = hereTile (t.ancestor d) := by
  have hsplit := mortonAux_split d t.level t.row t.col hd
  have hlow := mortonAux_lt d t.row t.col
  have h4 : (0 : Nat) < 4 ^ d := Nat.pos_pow_of_pos _ (by omega)
  unfold hereTile TileKey.ancestor
  simp only
  have hpow : 4 ^ t.level = 4 ^ (t.level - d) * 4 ^ d := by
    rw [← pow_add]
    congr 1
    omega
  rw [hsplit, hpow]
  have harr : 4 ^ (t.level - d) * 4 ^ d +
      (mortonAux (t.level - d) (t.row / 2 ^ d) (t.col / 2 ^ d) * 4 ^ d +
        mortonAux d t.row t.col) =
      4 ^ d * (4 ^ (t.level - d) +
        mortonAux (t.level - d) (t.row / 2 ^ d) (t.col / 2 ^ d)) +
        mortonAux d t.row t.col := by ring
  rw [harr, Nat.mul_add_div h4, Nat.div_eq_of_lt hlow, Nat.add_zero]

theorem hereTile_mod_pow (t : TileKey) (d : Nat) (hd : d ≤ t.level) :
    hereTile t % 4 ^ d = mortonAux d t.row t.col := by
  have hsplit := mortonAux_split d t.level t.row t.col hd
  have hlow := mortonAux_lt d t.row t.col
  unfold hereTile
  have hpow : 4 ^ t.level = 4 ^ (t.level - d) * 4 ^ d := by
    rw [← pow_add]
    congr 1
    omega
  rw [hsplit, hpow]
  have harr : 4 ^ (t.level - d) * 4 ^ d +
      (mortonAux (t.level - d) (t.row / 2 ^ d) (t.col / 2 ^ d) * 4 ^ d +
        mortonAux d t.row t.col) =
      4 ^ d * (4 ^ (t.level - d) +
        mortonAux (t.level - d) (t.row / 2 ^ d) (t.col / 2 ^ d)) +
        mortonAux d t.row t.col := by ring
  rw [harr, Nat.mul_add_mod, Nat.mod_eq_of_lt hlow]

theorem TileKey.Wf.ancestor {t : TileKey} (h : t.Wf) (d : Nat) :
    TileKey.Wf (t.ancestor d) := by
  obtain ⟨hr, hc⟩ := h
  have key : ∀ r : Nat, r < 2 ^ t.level → r / 2 ^ d < 2 ^ (t.level - d) := by
    intro r hrlt
    rw [Nat.div_lt_iff_lt_mul (Nat.pos_pow_of_pos _ (by omega)), ← pow_add]
    exact lt_of_lt_of_le hrlt (Nat.pow_le_pow_right (by omega) (by omega))
  exact ⟨key _ hr, key _ hc⟩

theorem hereTile_inj {t u : TileKey} (ht : t.Wf) (hu : u.Wf)
    (h : hereTile t = hereTile u) : t = u := by
  have hl : t.level = u.level := by
    have h1 := log4_hereTile t
    have h2 := log4_hereTile u
    rw [h] at h1
    omega
  have hm : mortonAux t.level t.row t.col = mortonAux u.level u.row u.col := by
    unfold hereTile at h
    rw [hl] at h ⊢
    omega
  rw [hl] at hm
  obtain ⟨hr, hc⟩ :=
    mortonAux_inj (hl ▸ ht.1) (hl ▸ ht.2) hu.1 hu.2 hm
  cases t
  cases u
  simp_all

/-! ### Byte-level primitives

Little-endian integer fields, as laid out by the packed `QuadTreeIndex`
blob of `QuadTreeIndex.h` (`DataHeader`, `SubEntry`, `ParentEntry`,
`AdditionalDataCompacted`). A buffer is a list of byte values. -/

/-- `w`-byte little-endian encoding of `v`. -/
def leBytes : Nat → Nat → List Nat
  | 0, _ => []
  | w + 1, v => v % 256 :: leBytes w (v / 256)

/-- Read a `w`-byte little-endian integer from the front of a buffer;
`none` when the buffer is too short. -/
def readLE : Nat → List Nat → Option Nat
  | 0, _ => some 0
  | _ + 1, [] => none
  | w + 1, x :: xs => (readLE w xs).map (fun v => x + 256 * v)

theorem length_leBytes (w v : Nat) : (leBytes w v).length = w := by
  induction w generalizing v with
  | zero => rfl
  | succ w ih => simp [leBytes, ih]

theorem readLE_leBytes (w v : Nat) (rest : List Nat) (hv : v < 256 ^ w) :
    readLE w (leBytes w v ++ rest) = some v := by
  induction w generalizing v with
  | zero =>
    have h1 : (256 : Nat) ^ 0 = 1 := pow_zero 256
    have : v = 0 := by omega
    subst this
    rfl
  | succ w ih =>
    have hpow : (256 : Nat) ^ (w + 1) = 256 * 256 ^ w := pow_succ' 256 w
    have hdiv : v / 256 < 256 ^ w := Nat.div_lt_of_lt_mul (by omega)
    have hstep : readLE (w + 1) (leBytes (w + 1) v ++ rest) =
        (readLE w (leBytes w (v / 256) ++ rest)).map
          (fun y => v % 256 + 256 * y) := rfl
    rw [hstep, ih (v / 256) hdiv]
    simp only [Option.map_some']
    congr 1
    omega

theorem drop_leBytes_append (w v : Nat) (rest : List Nat) :
    (leBytes w v ++ rest).drop w = rest := by
  induction w generalizing v with
  | zero => rfl
  | succ w ih => simpa [leBytes] using ih (v / 256)

/-- String contents as a byte list (`NUL`-terminated ASCII data handles are
stored byte-for-byte in the data section). -/
def strBytes (s : String) : List Nat := s.toList.map Char.toNat

/-- Byte list back to a string. -/
def bytesStr (l : List Nat) : String := String.mk (l.map Char.ofNat)

theorem bytesStr_strBytes (s : String) : bytesStr (strBytes s) = s := by
  unfold bytesStr strBytes
  rw [List.map_map]
  have : (Char.ofNat ∘ Char.toNat) = id := by
    funext c
    simp [Char.ofNat_toNat]
  rw [this, List.map_id]
  cases s
  rfl

/-- A string that may serve as a NUL-terminated data handle: no NUL byte. -/
def NulFree (s : String) : Prop := ∀ c ∈ s.toList, Char.toNat c ≠ 0

instance (s : String) : Decidable (NulFree s) :=
  inferInstanceAs (Decidable (∀ c ∈ s.toList, Char.toNat c ≠ 0))

/-! ### Tag records

`BitSetFlags` from `QuadTreeIndex.h`: bit 0 (`kVersion`) marks a version
field, bit 1 (`kCrc`) is reserved, bit 3 (`kDataHandle`) marks a
NUL-terminated data handle. A tag is the flags byte followed by the
optional fields. -/

/-- One decoded node of a quad-tree response: `IndexData` of
`QuadTreeIndex.h` (tile key, data handle, catalog version). -/
structure IndexData where
  tileKey : TileKey
  dataHandle : String
  version : Nat
deriving DecidableEq, Repr

/-- Serialized tag for a node carrying both a version and a data handle:
flags byte `kVersion ||| kDataHandle = 9`, 8-byte little-endian version,
then the handle bytes with a NUL terminator. -/
def serializeTag (n : IndexData) : List Nat :=
  9 :: (leBytes 8 n.version ++ (strBytes n.dataHandle ++ [0]))

/-- A byte that is not the NUL terminator. -/
def nonzeroByte (x : Nat) : Bool := x != 0

/-- Modelled from the spec: tag decoding used by `QuadTreeIndex::Find`
(whose body, `QuadTreeIndex.cpp`, is not in the source tree). Reads the
flags byte, the version when bit 0 is set and the NUL-terminated handle
when bit 3 is set; yields `none` when neither flag is set (entry present
but unresolvable). -/
def parseTag (b : List Nat) : Option (String × Nat) :=
  match b with
  | [] => none
  | flags :: rest =>
    let hasVersion := flags % 2 = 1
    let hasHandle := flags / 8 % 2 = 1
    if hasVersion then
      match readLE 8 rest with
      | none => none
      | some v =>
        if hasHandle then
          some (bytesStr ((rest.drop 8).takeWhile nonzeroByte), v)
        else some ("", v)
    else if hasHandle then
      some (bytesStr (rest.takeWhile nonzeroByte), 0)
    else none

theorem takeWhile_append_nul (l : List Nat) (hl : ∀ x ∈ l, x ≠ 0)
    (rest : List Nat) :
    ((l ++ 0 :: rest).takeWhile nonzeroByte) = l := by
  induction l with
  | nil => simp [nonzeroByte]
  | cons a t ih =>
    have ha : a ≠ 0 := hl a (List.mem_cons_self _ _)
    have ht : ∀ x ∈ t, x ≠ 0 := fun x hx => hl x (List.mem_cons_of_mem _ hx)
    have hd : nonzeroByte a = true := by simp [nonzeroByte, ha]
    rw [List.cons_append, List.takeWhile_cons_of_pos hd, ih ht]

theorem strBytes_nulfree {s : String} (hs : NulFree s) :
    ∀ x ∈ strBytes s, x ≠ 0 := by
  intro x hx
  unfold strBytes at hx
  obtain ⟨c, hc, rfl⟩ := List.mem_map.mp hx
  exact hs c hc

theorem parseTag_serializeTag (n : IndexData) (rest : List Nat)
    (hh : NulFree n.dataHandle) (hv : n.version < 256 ^ 8) :
    parseTag (serializeTag n ++ rest) = some (n.dataHandle, n.version) := by
  have hcat : serializeTag n ++ rest =
      9 :: (leBytes 8 n.version ++ (strBytes n.dataHandle ++ 0 :: rest)) := by
    unfold serializeTag
    simp
  rw [hcat]
  simp only [parseTag]
  rw [readLE_leBytes 8 n.version _ hv]
  simp only [drop_leBytes_append]
  rw [takeWhile_append_nul _ (strBytes_nulfree hh) rest, bytesStr_strBytes]
  norm_num

/-! ### The packed quad-tree index

Parsed view of the packed blob of `QuadTreeIndex.h`: the header fields,
the two sorted entry arrays `(key, tag_offset)` and the data section
holding the variable-length tags. -/

structure QuadTreeIndex where
  rootTile : Nat
  depth : Nat
  subEntries : List (Nat × Nat)
  parentEntries : List (Nat × Nat)
  dataSection : List Nat
deriving DecidableEq, Repr

/-- Absolute offsets of consecutive tags laid out from offset `acc`. -/
def tagOffsets : List (List Nat) → Nat → List Nat
  | [], _ => []
  | t :: ts, acc => acc :: tagOffsets ts (acc + t.length)

/-- `t` is the root itself or one of its descendants within `depth` levels. -/
def IsDescWithin (root : TileKey) (depth : Nat) (t : TileKey) : Bool :=
  decide (root.level ≤ t.level) && decide (t.level - root.level ≤ depth) &&
    decide (t.ancestor (t.level - root.level) = root)

/-- `t` is a proper ancestor of `root`. -/
def IsStrictAncestor (t root : TileKey) : Bool :=
  decide (t.level < root.level) &&
    decide (root.ancestor (root.level - t.level) = t)

/-- Sort `(key, node)` pairs by key (the sorted-array invariant of the
`SubEntry[]` / `ParentEntry[]` arrays). -/
def sortByKey (l : List (Nat × IndexData)) : List (Nat × IndexData) :=
  List.insertionSort (fun a b => a.1 ≤ b.1) l

instance : IsTotal (Nat × IndexData) (fun a b => a.1 ≤ b.1) :=
  ⟨fun a b => Nat.le_total a.1 b.1⟩

instance : IsTrans (Nat × IndexData) (fun a b => a.1 ≤ b.1) :=
  ⟨fun _ _ _ => Nat.le_trans⟩

/-- Descendant nodes of `root` within `depth`, keyed by sub-quadkey, sorted. -/
def subSorted (root : TileKey) (depth : Nat) (nodes : List IndexData) :
    List (Nat × IndexData) :=
  sortByKey ((nodes.filter (fun n => IsDescWithin root depth n.tileKey)).map
    (fun n => (subQuadkeyAt n.tileKey (n.tileKey.level - root.level), n)))

/-- Ancestor nodes of `root`, keyed by absolute here-tile, sorted. -/
def parSorted (root : TileKey) (nodes : List IndexData) :
    List (Nat × IndexData) :=
  sortByKey ((nodes.filter (fun n => IsStrictAncestor n.tileKey root)).map
    (fun n => (hereTile n.tileKey, n)))

/-- The serialized tags of a keyed node list, in order. -/
def tagsOf (l : List (Nat × IndexData)) : List (List Nat) :=
  l.map (fun p => serializeTag p.2)

/-- The `(key, tag_offset)` entry array for a keyed node list whose tags
are laid out consecutively starting at offset `acc`. -/
def entriesOf (l : List (Nat × IndexData)) (acc : Nat) : List (Nat × Nat) :=
  List.zipWith (fun (p : Nat × IndexData) o => (p.1, o)) l
    (tagOffsets (tagsOf l) acc)

/-- Modelled from the spec: `QuadTreeIndex::QuadTreeIndex(root, depth, json)`
together with `CreateBlob` (bodies not in the source tree, declared in
`QuadTreeIndex.h`). Splits the decoded nodes into sub-entries (descendants
of `root` within `depth`, keyed by sub-quadkey) and parent entries
(ancestors, keyed by absolute here-tile), sorts each array, serializes the
tags into the data section and records each entry's absolute tag offset. -/
def build (root : TileKey) (depth : Nat) (nodes : List IndexData) : QuadTreeIndex :=
  { rootTile := hereTile root
    depth := depth
    subEntries := entriesOf (subSorted root depth nodes) 0
    parentEntries := entriesOf (parSorted root nodes)
      (tagsOf (subSorted root depth nodes)).flatten.length
    dataSection := (tagsOf (subSorted root depth nodes)).flatten ++
      (tagsOf (parSorted root nodes)).flatten }

/-- The raw packed blob: `DataHeader` (u64 root here-tile, u8 depth,
u8 parent_count, u16 subkey_count), the `SubEntry` array (u16 sub_quadkey,
u16 tag_offset), the `ParentEntry` array (u64 key, u32 tag_offset), then
the data section — the little-endian layout of `QuadTreeIndex.h`. -/
def QuadTreeIndex.raw (q : QuadTreeIndex) : List Nat :=
  leBytes 8 q.rootTile ++ leBytes 1 q.depth ++ leBytes 1 q.parentEntries.length ++
    leBytes 2 q.subEntries.length ++
    (q.subEntries.map (fun e => leBytes 2 e.1 ++ leBytes 2 e.2)).flatten ++
    ((q.parentEntries.map (fun e => leBytes 8 e.1 ++ leBytes 4 e.2)).flatten ++
      q.dataSection)

/-- Strict ascending check on entry keys (the sorted-array invariant of
`SubEntry[]`/`ParentEntry[]`). -/
def strictAsc : List (Nat × Nat) → Bool
  | [] => true
  | [_] => true
  | a :: b :: t => decide (a.1 < b.1) && strictAsc (b :: t)

/-- Parse `n` fixed-width `(key, tag_offset)` entries with a `kw`-byte key
and an `ow`-byte offset, returning the remainder of the buffer. -/
def parseEntries (kw ow : Nat) : Nat → List Nat → Option (List (Nat × Nat) × List Nat)
  | 0, b => some ([], b)
  | n + 1, b =>
    match readLE kw b, readLE ow (b.drop kw) with
    | some k, some off =>
      match parseEntries kw ow n (b.drop (kw + ow)) with
      | some (es, rest) => some ((k, off) :: es, rest)
      | none => none
    | _, _ => none

/-- Modelled from the spec: `QuadTreeIndex(BlobDataPtr)` — `load(buffer)`.
Validates the header counts against the buffer length and the strict
monotonicity of both entry arrays; tags are not parsed. -/
def load (b : List Nat) : Option QuadTreeIndex :=
  match readLE 8 b, readLE 1 (b.drop 8), readLE 1 (b.drop 9),
      readLE 2 (b.drop 10) with
  | some root, some depth, some pc, some sc =>
    match parseEntries 2 2 sc (b.drop 12) with
    | some (subs, b2) =>
      match parseEntries 8 4 pc b2 with
      | some (pars, dataSec) =>
        if strictAsc subs && strictAsc pars then
          some ⟨root, depth, subs, pars, dataSec⟩
        else none
      | none => none
    | none => none
  | _, _, _, _ => none

/-- First-match lookup of a key in an entry array. On the strictly sorted
arrays of a valid index this computes exactly what the binary search of
`QuadTreeIndex::Find` computes on the packed bytes. -/
def lookupKey (k : Nat) : List (Nat × Nat) → Option Nat
  | [] => none
  | e :: t => if e.1 = k then some e.2 else lookupKey k t

/-- Modelled from the spec: `QuadTreeIndex::Find` (declared in
`QuadTreeIndex.h`, body not in the source tree). If the queried tile is
the root or a descendant within `depth`, look up its sub-quadkey in the
sub-entry array; if it is an ancestor of the root, look up its absolute
here-tile in the parent array; otherwise `none`. On a hit, decode the tag
at the entry's offset. -/
def QuadTreeIndex.find (q : QuadTreeIndex) (t : TileKey) : Option (String × Nat) :=
  if log4 q.rootTile ≤ log4 (hereTile t) ∧
      log4 (hereTile t) - log4 q.rootTile ≤ q.depth ∧
      hereTile t / 4 ^ (log4 (hereTile t) - log4 q.rootTile) = q.rootTile then
    match lookupKey (4 ^ (log4 (hereTile t) - log4 q.rootTile) +
        hereTile t % 4 ^ (log4 (hereTile t) - log4 q.rootTile))
        q.subEntries with
    | some off => parseTag (q.dataSection.drop off)
    | none => none
  else if log4 (hereTile t) < log4 q.rootTile ∧
      q.rootTile / 4 ^ (log4 q.rootTile - log4 (hereTile t)) = hereTile t then
    match lookupKey (hereTile t) q.parentEntries with
    | some off => parseTag (q.dataSection.drop off)
    | none => none
  else none

/-! ### Layout and lookup lemmas for the packed index -/

theorem tagOffsets_length (ts : List (List Nat)) (acc : Nat) :
    (tagOffsets ts acc).length = ts.length := by
  induction ts generalizing acc with
  | nil => rfl
  | cons t ts ih => simp [tagOffsets, ih]

theorem mem_tagOffsets_le (ts : List (List Nat)) (acc : Nat) (o : Nat)
    (ho : o ∈ tagOffsets ts acc) : acc ≤ o ∧ o ≤ acc + ts.flatten.length := by
  induction ts generalizing acc with
  | nil => cases ho
  | cons t ts ih =>
    simp only [tagOffsets, List.mem_cons] at ho
    rcases ho with rfl | ho
    · simp
    · have := ih (acc + t.length) ho
      simp only [List.flatten_cons, List.length_append]
      omega

theorem mem_entriesOf (ps : List (Nat × IndexData)) (acc : Nat)
    (e : Nat × Nat) (he : e ∈ entriesOf ps acc) :
    e.1 ∈ ps.map Prod.fst ∧ e.2 ∈ tagOffsets (tagsOf ps) acc := by
  unfold entriesOf at he
  induction ps generalizing acc with
  | nil => cases he
  | cons p ts ih =>
    simp only [tagsOf, List.map_cons, tagOffsets, List.zipWith_cons_cons,
      List.mem_cons] at he
    rcases he with rfl | he
    · simp [tagsOf, tagOffsets]
    · have := ih _ he
      simp only [List.map_cons, List.mem_cons, tagsOf, tagOffsets]
      exact ⟨Or.inr this.1, Or.inr this.2⟩

theorem map_fst_entriesOf (ps : List (Nat × IndexData)) (acc : Nat) :
    (entriesOf ps acc).map Prod.fst = ps.map Prod.fst := by
  unfold entriesOf
  induction ps generalizing acc with
  | nil => rfl
  | cons p ts ih =>
    simp only [tagsOf, List.map_cons, tagOffsets, List.zipWith_cons_cons]
    simpa [tagsOf] using ih (acc + (serializeTag p.2).length)

theorem entriesOf_layout (ps : List (Nat × IndexData)) (buf post : List Nat)
    (q : Nat × IndexData) (hq : q ∈ ps) :
    ∃ off rest, (q.1, off) ∈ entriesOf ps buf.length ∧
      (buf ++ ((tagsOf ps).flatten ++ post)).drop off =
        serializeTag q.2 ++ rest := by
  induction ps generalizing buf with
  | nil => cases hq
  | cons p ts ih =>
    have hunfold : entriesOf (p :: ts) buf.length =
        (p.1, buf.length) :: entriesOf ts (buf.length + (serializeTag p.2).length) := by
      simp [entriesOf, tagsOf, tagOffsets]
    have hflat : (tagsOf (p :: ts)).flatten =
        serializeTag p.2 ++ (tagsOf ts).flatten := by
      simp [tagsOf]
    rcases List.mem_cons.mp hq with rfl | hq
    · refine ⟨buf.length, (tagsOf ts).flatten ++ post, ?_, ?_⟩
      · rw [hunfold]
        exact List.mem_cons_self _ _
      · rw [hflat]
        have : buf ++ (serializeTag q.2 ++ (tagsOf ts).flatten ++ post) =
            buf ++ (serializeTag q.2 ++ ((tagsOf ts).flatten ++ post)) := by
          simp [List.append_assoc]
        rw [this, List.drop_left]
    · obtain ⟨off, rest, hmem, hdrop⟩ := ih (buf ++ serializeTag p.2) hq
      refine ⟨off, rest, ?_, ?_⟩
      · rw [hunfold]
        apply List.mem_cons_of_mem
        have hlen : (buf ++ serializeTag p.2).length =
            buf.length + (serializeTag p.2).length := List.length_append _ _
        rw [hlen] at hmem
        exact hmem
      · rw [hflat]
        have : buf ++ (serializeTag p.2 ++ (tagsOf ts).flatten ++ post) =
            (buf ++ serializeTag p.2) ++ ((tagsOf ts).flatten ++ post) := by
          simp [List.append_assoc]
        rw [this]
        exact hdrop

theorem lookupKey_of_mem {k v : Nat} {l : List (Nat × Nat)}
    (h : (k, v) ∈ l) (hn : (l.map Prod.fst).Nodup) : lookupKey k l = some v := by
  induction l with
  | nil => cases h
  | cons e t ih =>
    simp only [List.map_cons, List.nodup_cons] at hn
    rcases List.mem_cons.mp h with rfl | hmem
    · simp [lookupKey]
    · have hne : e.1 ≠ k := by
        intro hk
        exact hn.1 (hk ▸ (List.mem_map.mpr ⟨(k, v), hmem, rfl⟩))
      simp only [lookupKey, if_neg hne]
      exact ih hmem hn.2

theorem lookupKey_eq_none {k : Nat} {l : List (Nat × Nat)}
    (h : k ∉ l.map Prod.fst) : lookupKey k l = none := by
  induction l with
  | nil => rfl
  | cons e t ih =>
    simp only [List.map_cons, List.mem_cons, not_or] at h
    have hne : e.1 ≠ k := fun hk => h.1 hk.symm
    simp only [lookupKey, if_neg hne]
    exact ih h.2

theorem strictAsc_iff_chain (l : List (Nat × Nat)) :
    strictAsc l = true ↔ List.Chain' (fun a b => a < b) (l.map Prod.fst) := by
  induction l with
  | nil => simp [strictAsc]
  | cons a t ih =>
    cases t with
    | nil => simp [strictAsc]
    | cons b t2 =>
      simp only [strictAsc, Bool.and_eq_true, decide_eq_true_eq, List.map_cons,
        List.chain'_cons] at *
      rw [ih]

/-! ### Key arithmetic for descendants and ancestors -/

theorem isDescWithin_iff {root : TileKey} {depth : Nat} {t : TileKey} :
    IsDescWithin root depth t = true ↔
      root.level ≤ t.level ∧ t.level - root.level ≤ depth ∧
        t.ancestor (t.level - root.level) = root := by
  simp [IsDescWithin, Bool.and_eq_true, and_assoc]

theorem isStrictAncestor_iff {t root : TileKey} :
    IsStrictAncestor t root = true ↔
      t.level < root.level ∧ root.ancestor (root.level - t.level) = t := by
  simp [IsStrictAncestor, Bool.and_eq_true]

theorem hereTile_desc {root t : TileKey} {d : Nat} (hl : d ≤ t.level)
    (hanc : t.ancestor d = root) :
    hereTile t = hereTile root * 4 ^ d + mortonAux d t.row t.col := by
  have hsplit := mortonAux_split d t.level t.row t.col hl
  have hpow : 4 ^ t.level = 4 ^ (t.level - d) * 4 ^ d := by
    rw [← pow_add]
    congr 1
    omega
  subst hanc
  unfold hereTile TileKey.ancestor
  simp only
  rw [hsplit, hpow]
  ring

theorem subQuadkeyAt_bounds (t : TileKey) (d : Nat) :
    4 ^ d ≤ subQuadkeyAt t d ∧ subQuadkeyAt t d < 4 ^ (d + 1) := by
  have := mortonAux_lt d t.row t.col
  unfold subQuadkeyAt
  constructor
  · omega
  · rw [pow_succ]
    omega

theorem subQuadkeyAt_inj {root t u : TileKey} {depth : Nat}
    (ht : t.Wf) (hu : u.Wf)
    (hdt : IsDescWithin root depth t = true)
    (hdu : IsDescWithin root depth u = true)
    (h : subQuadkeyAt t (t.level - root.level) =
      subQuadkeyAt u (u.level - root.level)) : t = u := by
  obtain ⟨hlt, _, hat⟩ := isDescWithin_iff.mp hdt
  obtain ⟨hlu, _, hau⟩ := isDescWithin_iff.mp hdu
  have hbt := subQuadkeyAt_bounds t (t.level - root.level)
  have hbu := subQuadkeyAt_bounds u (u.level - root.level)
  have hd : t.level - root.level = u.level - root.level := by
    rcases lt_trichotomy (t.level - root.level) (u.level - root.level) with hc | hc | hc
    · have := Nat.pow_le_pow_right (show 0 < 4 by omega)
        (show t.level - root.level + 1 ≤ u.level - root.level by omega)
      omega
    · exact hc
    · have := Nat.pow_le_pow_right (show 0 < 4 by omega)
        (show u.level - root.level + 1 ≤ t.level - root.level by omega)
      omega
  have hmor : mortonAux (t.level - root.level) t.row t.col =
      mortonAux (u.level - root.level) u.row u.col := by
    unfold subQuadkeyAt at h
    rw [hd] at h ⊢
    omega
  have het := hereTile_desc (show t.level - root.level ≤ t.level by omega) hat
  have heu := hereTile_desc (show u.level - root.level ≤ u.level by omega) hau
  apply hereTile_inj ht hu
  rw [← hd] at hmor heu
  rw [het, heu, hmor]

/-! ### Sortedness and distinctness of the built entry arrays -/

theorem sortByKey_perm (l : List (Nat × IndexData)) : (sortByKey l).Perm l :=
  List.perm_insertionSort _ l

theorem sortByKey_sorted (l : List (Nat × IndexData)) :
    List.Sorted (fun a b => a.1 ≤ b.1) (sortByKey l) :=
  List.sorted_insertionSort _ l

theorem strictAsc_entriesOf (ps : List (Nat × IndexData)) (acc : Nat)
    (hs : List.Sorted (fun a b => a.1 ≤ b.1) ps)
    (hnd : (ps.map Prod.fst).Nodup) : strictAsc (entriesOf ps acc) = true := by
  rw [strictAsc_iff_chain, map_fst_entriesOf]
  have hle : List.Pairwise (fun a b => a ≤ b) (ps.map Prod.fst) :=
    List.Pairwise.map _ (fun a b hab => hab) hs
  have hne : List.Pairwise (fun a b => a ≠ b) (ps.map Prod.fst) := hnd
  exact ((hle.and hne).imp (fun h => lt_of_le_of_ne h.1 h.2)).chain'

theorem subSorted_keys_nodup (root : TileKey) (depth : Nat)
    (nodes : List IndexData) (hw : ∀ n ∈ nodes, n.tileKey.Wf)
    (hnd : (nodes.map (fun n => n.tileKey)).Nodup) :
    ((subSorted root depth nodes).map Prod.fst).Nodup := by
  unfold subSorted
  have hperm := (sortByKey_perm ((nodes.filter
      (fun n => IsDescWithin root depth n.tileKey)).map
      (fun n => (subQuadkeyAt n.tileKey (n.tileKey.level - root.level), n)))).map Prod.fst
  rw [(List.Perm.nodup_iff hperm)]
  rw [List.map_map]
  have hfn : (nodes.filter (fun n => IsDescWithin root depth n.tileKey)).Nodup :=
    (List.filter_sublist nodes).nodup (List.Nodup.of_map _ hnd)
  apply hfn.map_on
  intro x hx y hy hxy
  simp only [List.mem_filter] at hx hy
  have := subQuadkeyAt_inj (hw x hx.1) (hw y hy.1) hx.2 hy.2 hxy
  exact List.inj_on_of_nodup_map hnd hx.1 hy.1 this

theorem parSorted_keys_nodup (root : TileKey) (nodes : List IndexData)
    (hw : ∀ n ∈ nodes, n.tileKey.Wf)
    (hnd : (nodes.map (fun n => n.tileKey)).Nodup) :
    ((parSorted root nodes).map Prod.fst).Nodup := by
  unfold parSorted
  have hperm := (sortByKey_perm ((nodes.filter
      (fun n => IsStrictAncestor n.tileKey root)).map
      (fun n => (hereTile n.tileKey, n)))).map Prod.fst
  rw [(List.Perm.nodup_iff hperm)]
  rw [List.map_map]
  have hfn : (nodes.filter (fun n => IsStrictAncestor n.tileKey root)).Nodup :=
    (List.filter_sublist nodes).nodup (List.Nodup.of_map _ hnd)
  apply hfn.map_on
  intro x hx y hy hxy
  simp only [List.mem_filter] at hx hy
  have := hereTile_inj (hw x hx.1) (hw y hy.1) hxy
  exact List.inj_on_of_nodup_map hnd hx.1 hy.1 this

/-! ### Raw-buffer roundtrip -/

theorem parseEntries_roundtrip (kw ow : Nat) (es : List (Nat × Nat))
    (rest : List Nat) (hk : ∀ e ∈ es, e.1 < 256 ^ kw ∧ e.2 < 256 ^ ow) :
    parseEntries kw ow es.length
      ((es.map (fun e => leBytes kw e.1 ++ leBytes ow e.2)).flatten ++ rest) =
      some (es, rest) := by
  induction es with
  | nil => simp [parseEntries]
  | cons e t ih =>
    have hbound := hk e (List.mem_cons_self _ _)
    have hrest : ∀ x ∈ t, x.1 < 256 ^ kw ∧ x.2 < 256 ^ ow :=
      fun x hx => hk x (List.mem_cons_of_mem _ hx)
    have hbuf : ((e :: t).map
        (fun x => leBytes kw x.1 ++ leBytes ow x.2)).flatten ++ rest =
        leBytes kw e.1 ++ (leBytes ow e.2 ++
          ((t.map (fun x => leBytes kw x.1 ++ leBytes ow x.2)).flatten ++ rest)) := by
      simp [List.flatten_cons, List.append_assoc]
    rw [List.length_cons, hbuf]
    simp only [parseEntries]
    rw [readLE_leBytes _ _ _ hbound.1, drop_leBytes_append,
      readLE_leBytes _ _ _ hbound.2]
    have hdrop : (leBytes kw e.1 ++ (leBytes ow e.2 ++
        ((t.map (fun x => leBytes kw x.1 ++ leBytes ow x.2)).flatten ++
          rest))).drop (kw + ow) =
        (t.map (fun x => leBytes kw x.1 ++ leBytes ow x.2)).flatten ++ rest := by
      rw [← List.drop_drop, drop_leBytes_append, drop_leBytes_append]
    rw [hdrop, ih hrest]

theorem load_raw (q : QuadTreeIndex)
    (hroot : q.rootTile < 256 ^ 8) (hdepth : q.depth < 256)
    (hpc : q.parentEntries.length < 256) (hsc : q.subEntries.length < 256 ^ 2)
    (hsub : ∀ e ∈ q.subEntries, e.1 < 256 ^ 2 ∧ e.2 < 256 ^ 2)
    (hpar : ∀ e ∈ q.parentEntries, e.1 < 256 ^ 8 ∧ e.2 < 256 ^ 4)
    (hs1 : strictAsc q.subEntries = true)
    (hs2 : strictAsc q.parentEntries = true) :
    load q.raw = some q := by
  have hshape : q.raw = leBytes 8 q.rootTile ++ (leBytes 1 q.depth ++
      (leBytes 1 q.parentEntries.length ++ (leBytes 2 q.subEntries.length ++
        ((q.subEntries.map (fun e => leBytes 2 e.1 ++ leBytes 2 e.2)).flatten ++
          ((q.parentEntries.map
            (fun e => leBytes 8 e.1 ++ leBytes 4 e.2)).flatten ++
              q.dataSection))))) := by
    simp [QuadTreeIndex.raw, List.append_assoc]
  have h256 : (256 : Nat) = 256 ^ 1 := by norm_num
  have hr0 : readLE 8 q.raw = some q.rootTile := by
    rw [hshape]
    exact readLE_leBytes _ _ _ hroot
  have hd8 : q.raw.drop 8 = leBytes 1 q.depth ++
      (leBytes 1 q.parentEntries.length ++ (leBytes 2 q.subEntries.length ++
        ((q.subEntries.map (fun e => leBytes 2 e.1 ++ leBytes 2 e.2)).flatten ++
          ((q.parentEntries.map
            (fun e => leBytes 8 e.1 ++ leBytes 4 e.2)).flatten ++
              q.dataSection)))) := by
    rw [hshape]
    exact drop_leBytes_append _ _ _
  have hd9 : q.raw.drop 9 = leBytes 1 q.parentEntries.length ++
      (leBytes 2 q.subEntries.length ++
        ((q.subEntries.map (fun e => leBytes 2 e.1 ++ leBytes 2 e.2)).flatten ++
          ((q.parentEntries.map
            (fun e => leBytes 8 e.1 ++ leBytes 4 e.2)).flatten ++
              q.dataSection))) := by
    have h9 : (9 : Nat) = 8 + 1 := rfl
    rw [h9, ← List.drop_drop, hd8]
    exact drop_leBytes_append _ _ _
  have hd10 : q.raw.drop 10 = leBytes 2 q.subEntries.length ++
      ((q.subEntries.map (fun e => leBytes 2 e.1 ++ leBytes 2 e.2)).flatten ++
        ((q.parentEntries.map
          (fun e => leBytes 8 e.1 ++ leBytes 4 e.2)).flatten ++
            q.dataSection)) := by
    have h10 : (10 : Nat) = 9 + 1 := rfl
    rw [h10, ← List.drop_drop, hd9]
    exact drop_leBytes_append _ _ _
  have hd12 : q.raw.drop 12 =
      (q.subEntries.map (fun e => leBytes 2 e.1 ++ leBytes 2 e.2)).flatten ++
        ((q.parentEntries.map
          (fun e => leBytes 8 e.1 ++ leBytes 4 e.2)).flatten ++
            q.dataSection) := by
    have h12 : (12 : Nat) = 10 + 2 := rfl
    rw [h12, ← List.drop_drop, hd10]
    exact drop_leBytes_append _ _ _
  have hr1 : readLE 1 (q.raw.drop 8) = some q.depth := by
    rw [hd8]
    exact readLE_leBytes _ _ _ (by omega)
  have hr2 : readLE 1 (q.raw.drop 9) = some q.parentEntries.length := by
    rw [hd9]
    exact readLE_leBytes _ _ _ (by omega)
  have hr3 : readLE 2 (q.raw.drop 10) = some q.subEntries.length := by
    rw [hd10]
    exact readLE_leBytes _ _ _ hsc
  have hp1 : parseEntries 2 2 q.subEntries.length (q.raw.drop 12) =
      some (q.subEntries,
        (q.parentEntries.map (fun e => leBytes 8 e.1 ++ leBytes 4 e.2)).flatten ++
          q.dataSection) := by
    rw [hd12]
    exact parseEntries_roundtrip 2 2 _ _ hsub
  have hp2 : parseEntries 8 4 q.parentEntries.length
      ((q.parentEntries.map (fun e => leBytes 8 e.1 ++ leBytes 4 e.2)).flatten ++
        q.dataSection) = some (q.parentEntries, q.dataSection) :=
    parseEntries_roundtrip 8 4 _ _ hpar
  simp only [load, hr0, hr1, hr2, hr3, hp1, hp2, hs1, hs2, Bool.and_self,
    if_true]

/-! ### `Find` correctness on a freshly built index -/

theorem find_build_desc (root : TileKey) (depth : Nat) (nodes : List IndexData)
    (hw : ∀ n ∈ nodes, n.tileKey.Wf)
    (hnd : (nodes.map (fun n => n.tileKey)).Nodup)
    (hnul : ∀ n ∈ nodes, NulFree n.dataHandle)
    (hver : ∀ n ∈ nodes, n.version < 256 ^ 8)
    (n : IndexData) (hn : n ∈ nodes)
    (hdesc : IsDescWithin root depth n.tileKey = true) :
    (build root depth nodes).find n.tileKey = some (n.dataHandle, n.version) := by
  obtain ⟨hle, hdep, hanc⟩ := isDescWithin_iff.mp hdesc
  have hdlev : n.tileKey.level - root.level ≤ n.tileKey.level := by omega
  have hdiv : hereTile n.tileKey / 4 ^ (n.tileKey.level - root.level) =
      hereTile root := by
    rw [hereTile_div_pow _ _ hdlev, hanc]
  have hkeyeq : 4 ^ (n.tileKey.level - root.level) +
      hereTile n.tileKey % 4 ^ (n.tileKey.level - root.level) =
      subQuadkeyAt n.tileKey (n.tileKey.level - root.level) := by
    rw [hereTile_mod_pow _ _ hdlev]
    rfl
  have hmemPairs : (subQuadkeyAt n.tileKey (n.tileKey.level - root.level), n) ∈
      subSorted root depth nodes := by
    unfold subSorted
    rw [(sortByKey_perm _).mem_iff]
    exact List.mem_map.mpr ⟨n, List.mem_filter.mpr ⟨hn, hdesc⟩, rfl⟩
  obtain ⟨off, rest, hmem, hdrop⟩ := entriesOf_layout (subSorted root depth nodes)
    [] ((tagsOf (parSorted root nodes)).flatten) _ hmemPairs
  have hkeysnd : ((entriesOf (subSorted root depth nodes) 0).map Prod.fst).Nodup := by
    rw [map_fst_entriesOf]
    exact subSorted_keys_nodup root depth nodes hw hnd
  have hlook : lookupKey (subQuadkeyAt n.tileKey (n.tileKey.level - root.level))
      (entriesOf (subSorted root depth nodes) 0) = some off :=
    lookupKey_of_mem (by simpa using hmem) hkeysnd
  have hparse : parseTag (((tagsOf (subSorted root depth nodes)).flatten ++
      (tagsOf (parSorted root nodes)).flatten).drop off) =
      some (n.dataHandle, n.version) := by
    have hd2 : ((tagsOf (subSorted root depth nodes)).flatten ++
        (tagsOf (parSorted root nodes)).flatten).drop off =
        serializeTag n ++ rest := by simpa using hdrop
    rw [hd2]
    exact parseTag_serializeTag n rest (hnul n hn) (hver n hn)
  show QuadTreeIndex.find
    { rootTile := hereTile root
      depth := depth
      subEntries := entriesOf (subSorted root depth nodes) 0
      parentEntries := entriesOf (parSorted root nodes)
        (tagsOf (subSorted root depth nodes)).flatten.length
      dataSection := (tagsOf (subSorted root depth nodes)).flatten ++
        (tagsOf (parSorted root nodes)).flatten } n.tileKey =
    some (n.dataHandle, n.version)
  unfold QuadTreeIndex.find
  simp only [log4_hereTile_level]
  rw [if_pos ⟨hle, hdep, hdiv⟩, hkeyeq, hlook]
  exact hparse

theorem find_build_parent (root : TileKey) (depth : Nat) (nodes : List IndexData)
    (hrw : root.Wf) (hw : ∀ n ∈ nodes, n.tileKey.Wf)
    (hnd : (nodes.map (fun n => n.tileKey)).Nodup)
    (hnul : ∀ n ∈ nodes, NulFree n.dataHandle)
    (hver : ∀ n ∈ nodes, n.version < 256 ^ 8)
    (n : IndexData) (hn : n ∈ nodes)
    (hpar : IsStrictAncestor n.tileKey root = true) :
    (build root depth nodes).find n.tileKey = some (n.dataHandle, n.version) := by
  obtain ⟨hlt, hanc⟩ := isStrictAncestor_iff.mp hpar
  have hklev : root.level - n.tileKey.level ≤ root.level := by omega
  have hdiv : hereTile root / 4 ^ (root.level - n.tileKey.level) =
      hereTile n.tileKey := by
    rw [hereTile_div_pow _ _ hklev, hanc]
  have hmemPairs : (hereTile n.tileKey, n) ∈ parSorted root nodes := by
    unfold parSorted
    rw [(sortByKey_perm _).mem_iff]
    exact List.mem_map.mpr ⟨n, List.mem_filter.mpr ⟨hn, hpar⟩, rfl⟩
  obtain ⟨off, rest, hmem, hdrop⟩ := entriesOf_layout (parSorted root nodes)
    ((tagsOf (subSorted root depth nodes)).flatten) [] _ hmemPairs
  have hkeysnd : ((entriesOf (parSorted root nodes)
      (tagsOf (subSorted root depth nodes)).flatten.length).map Prod.fst).Nodup := by
    rw [map_fst_entriesOf]
    exact parSorted_keys_nodup root nodes hw hnd
  have hlook : lookupKey (hereTile n.tileKey)
      (entriesOf (parSorted root nodes)
        (tagsOf (subSorted root depth nodes)).flatten.length) = some off :=
    lookupKey_of_mem hmem hkeysnd
  have hparse : parseTag (((tagsOf (subSorted root depth nodes)).flatten ++
      (tagsOf (parSorted root nodes)).flatten).drop off) =
      some (n.dataHandle, n.version) := by
    have hd2 : ((tagsOf (subSorted root depth nodes)).flatten ++
        (tagsOf (parSorted root nodes)).flatten).drop off =
        serializeTag n ++ rest := by simpa using hdrop
    rw [hd2]
    exact parseTag_serializeTag n rest (hnul n hn) (hver n hn)
  show QuadTreeIndex.find
    { rootTile := hereTile root
      depth := depth
      subEntries := entriesOf (subSorted root depth nodes) 0
      parentEntries := entriesOf (parSorted root nodes)
        (tagsOf (subSorted root depth nodes)).flatten.length
      dataSection := (tagsOf (subSorted root depth nodes)).flatten ++
        (tagsOf (parSorted root nodes)).flatten } n.tileKey =
    some (n.dataHandle, n.version)
  unfold QuadTreeIndex.find
  simp only [log4_hereTile_level]
  rw [if_neg (by omega), if_pos ⟨hlt, hdiv⟩, hlook]
  exact hparse

theorem find_build_none (root : TileKey) (depth : Nat) (nodes : List IndexData)
    (hrw : root.Wf) (hw : ∀ n ∈ nodes, n.tileKey.Wf)
    (t : TileKey) (ht : t.Wf)
    (hnotdesc : ¬IsDescWithin root depth t = true)
    (hnotpar : ∀ n ∈ nodes, IsStrictAncestor n.tileKey root = true →
      n.tileKey ≠ t) :
    (build root depth nodes).find t = none := by
  show QuadTreeIndex.find
    { rootTile := hereTile root
      depth := depth
      subEntries := entriesOf (subSorted root depth nodes) 0
      parentEntries := entriesOf (parSorted root nodes)
        (tagsOf (subSorted root depth nodes)).flatten.length
      dataSection := (tagsOf (subSorted root depth nodes)).flatten ++
        (tagsOf (parSorted root nodes)).flatten } t = none
  unfold QuadTreeIndex.find
  simp only [log4_hereTile_level]
  have hc1 : ¬(root.level ≤ t.level ∧ t.level - root.level ≤ depth ∧
      hereTile t / 4 ^ (t.level - root.level) = hereTile root) := by
    rintro ⟨h1, h2, h3⟩
    apply hnotdesc
    rw [hereTile_div_pow _ _ (by omega : t.level - root.level ≤ t.level)] at h3
    exact isDescWithin_iff.mpr ⟨h1, h2,
      hereTile_inj (ht.ancestor _) hrw h3⟩
  rw [if_neg hc1]
  by_cases hc2 : t.level < root.level ∧
      hereTile root / 4 ^ (root.level - t.level) = hereTile t
  · rw [if_pos hc2]
    have hnomem : hereTile t ∉ (entriesOf (parSorted root nodes)
        (tagsOf (subSorted root depth nodes)).flatten.length).map Prod.fst := by
      rw [map_fst_entriesOf]
      intro hmem
      unfold parSorted at hmem
      rw [List.Perm.mem_iff ((sortByKey_perm _).map Prod.fst)] at hmem
      rw [List.map_map] at hmem
      obtain ⟨m, hm, hme⟩ := List.mem_map.mp hmem
      rw [List.mem_filter] at hm
      have : m.tileKey = t :=
        hereTile_inj (hw m hm.1) ht hme
      exact hnotpar m hm.1 hm.2 this
    rw [lookupKey_eq_none hnomem]
  · rw [if_neg hc2]

/-! ### Bounds on the built arrays -/

theorem entriesOf_length (ps : List (Nat × IndexData)) (acc : Nat) :
    (entriesOf ps acc).length = ps.length := by
  simp [entriesOf, List.length_zipWith, tagOffsets_length, tagsOf]

theorem subSorted_length (root : TileKey) (depth : Nat) (nodes : List IndexData) :
    (subSorted root depth nodes).length ≤ nodes.length := by
  unfold subSorted
  rw [(sortByKey_perm _).length_eq, List.length_map]
  exact List.length_filter_le _ _

theorem parSorted_length (root : TileKey) (nodes : List IndexData) :
    (parSorted root nodes).length ≤ nodes.length := by
  unfold parSorted
  rw [(sortByKey_perm _).length_eq, List.length_map]
  exact List.length_filter_le _ _

theorem mem_subSorted_key (root : TileKey) (depth : Nat) (nodes : List IndexData)
    (k : Nat) (hm : k ∈ (subSorted root depth nodes).map Prod.fst) :
    ∃ n ∈ nodes, IsDescWithin root depth n.tileKey = true ∧
      k = subQuadkeyAt n.tileKey (n.tileKey.level - root.level) := by
  unfold subSorted at hm
  rw [List.Perm.mem_iff ((sortByKey_perm _).map Prod.fst), List.map_map] at hm
  obtain ⟨n, hn, he⟩ := List.mem_map.mp hm
  rw [List.mem_filter] at hn
  exact ⟨n, hn.1, hn.2, he.symm⟩

theorem mem_parSorted_key (root : TileKey) (nodes : List IndexData)
    (k : Nat) (hm : k ∈ (parSorted root nodes).map Prod.fst) :
    ∃ n ∈ nodes, IsStrictAncestor n.tileKey root = true ∧
      k = hereTile n.tileKey := by
  unfold parSorted at hm
  rw [List.Perm.mem_iff ((sortByKey_perm _).map Prod.fst), List.map_map] at hm
  obtain ⟨n, hn, he⟩ := List.mem_map.mp hm
  rw [List.mem_filter] at hn
  exact ⟨n, hn.1, hn.2, he.symm⟩

/-- C1 target property, bundled: re-loading the serialized buffer of a
built index yields an index whose `Find` agrees with the original nodes
and rejects everything outside the covered set. -/
theorem packed_quadtree_roundtrip
    (root : TileKey) (depth : Nat) (nodes : List IndexData)
    (hrw : root.Wf)
    (hw : ∀ n ∈ nodes, n.tileKey.Wf)
    (hnd : (nodes.map (fun n => n.tileKey)).Nodup)
    (hnul : ∀ n ∈ nodes, NulFree n.dataHandle)
    (hver : ∀ n ∈ nodes, n.version < 256 ^ 8)
    (hcov : ∀ n ∈ nodes, IsDescWithin root depth n.tileKey = true ∨
      IsStrictAncestor n.tileKey root = true)
    (hdep : depth ≤ 4)
    (hroot : hereTile root < 256 ^ 8)
    (hcount : nodes.length < 256)
    (hdata : (build root depth nodes).dataSection.length < 256 ^ 2) :
    ∃ idx, load (build root depth nodes).raw = some idx ∧
      (∀ n ∈ nodes, idx.find n.tileKey = some (n.dataHandle, n.version)) ∧
      (∀ t : TileKey, t.Wf →
        ¬(IsDescWithin root depth t = true ∨
          ∃ n ∈ nodes, IsStrictAncestor n.tileKey root = true ∧ n.tileKey = t) →
        idx.find t = none) := by
  have hsubflatlen : (tagsOf (subSorted root depth nodes)).flatten.length ≤
      (build root depth nodes).dataSection.length := by
    show _ ≤ ((tagsOf (subSorted root depth nodes)).flatten ++
      (tagsOf (parSorted root nodes)).flatten).length
    rw [List.length_append]
    omega
  have hdatalen : (build root depth nodes).dataSection.length =
      (tagsOf (subSorted root depth nodes)).flatten.length +
        (tagsOf (parSorted root nodes)).flatten.length := by
    show ((tagsOf (subSorted root depth nodes)).flatten ++
      (tagsOf (parSorted root nodes)).flatten).length = _
    rw [List.length_append]
  refine ⟨build root depth nodes, ?_, ?_, ?_⟩
  · apply load_raw
    · exact hroot
    · show depth < 256
      omega
    · show (entriesOf (parSorted root nodes) _).length < 256
      rw [entriesOf_length]
      have := parSorted_length root nodes
      omega
    · show (entriesOf (subSorted root depth nodes) 0).length < 256 ^ 2
      rw [entriesOf_length]
      have := subSorted_length root depth nodes
      norm_num
      omega
    · intro e he
      have hme := mem_entriesOf _ _ _ he
      constructor
      · obtain ⟨n, _, hd2, hk⟩ := mem_subSorted_key root depth nodes _ hme.1
        obtain ⟨_, hd3, _⟩ := isDescWithin_iff.mp hd2
        have hb := subQuadkeyAt_bounds n.tileKey (n.tileKey.level - root.level)
        have hpow : (4 : Nat) ^ (n.tileKey.level - root.level + 1) ≤ 4 ^ 5 :=
          Nat.pow_le_pow_right (by omega) (by omega)
        rw [hk]
        norm_num
        omega
      · have := mem_tagOffsets_le _ _ _ hme.2
        omega
    · intro e he
      have hme := mem_entriesOf _ _ _ he
      constructor
      · obtain ⟨n, _, hp2, hk⟩ := mem_parSorted_key root nodes _ hme.1
        obtain ⟨hlt, hanc⟩ := isStrictAncestor_iff.mp hp2
        have hdivle : hereTile root / 4 ^ (root.level - n.tileKey.level) ≤
            hereTile root := Nat.div_le_self _ _
        rw [hereTile_div_pow _ _ (by omega), hanc] at hdivle
        omega
      · have := mem_tagOffsets_le _ _ _ hme.2
        have h16 : (256 : Nat) ^ 2 ≤ 256 ^ 4 := Nat.pow_le_pow_right (by omega) (by omega)
        omega
    · exact strictAsc_entriesOf _ _ (sortByKey_sorted _)
        (subSorted_keys_nodup root depth nodes hw hnd)
    · exact strictAsc_entriesOf _ _ (sortByKey_sorted _)
        (parSorted_keys_nodup root nodes hw hnd)
  · intro n hn
    rcases hcov n hn with h | h
    · exact find_build_desc root depth nodes hw hnd hnul hver n hn h
    · exact find_build_parent root depth nodes hrw hw hnd hnul hver n hn h
  · intro t ht hout
    push_neg at hout
    exact find_build_none root depth nodes hrw hw t ht hout.1
      (fun n hn ha he => hout.2 n hn ha he)

/-- Concrete witness instantiation for the quad-tree roundtrip: a root at
level 2 with one descendant node and one ancestor node. -/
theorem packed_quadtree_roundtrip_witness :
    ∃ idx, load (build ⟨2, 1, 2⟩ 4
        [⟨⟨4, 5, 9⟩, "h1", 7⟩, ⟨⟨1, 0, 1⟩, "p1", 3⟩]).raw = some idx ∧
      (∀ n ∈ ([⟨⟨4, 5, 9⟩, "h1", 7⟩, ⟨⟨1, 0, 1⟩, "p1", 3⟩] : List IndexData),
        idx.find n.tileKey = some (n.dataHandle, n.version)) ∧
      (∀ t : TileKey, t.Wf →
        ¬(IsDescWithin ⟨2, 1, 2⟩ 4 t = true ∨
          ∃ n ∈ ([⟨⟨4, 5, 9⟩, "h1", 7⟩, ⟨⟨1, 0, 1⟩, "p1", 3⟩] : List IndexData),
            IsStrictAncestor n.tileKey ⟨2, 1, 2⟩ = true ∧ n.tileKey = t) →
        idx.find t = none) :=
  packed_quadtree_roundtrip ⟨2, 1, 2⟩ 4
    [⟨⟨4, 5, 9⟩, "h1", 7⟩, ⟨⟨1, 0, 1⟩, "p1", 3⟩]
    (by decide) (by decide) (by decide) (by decide) (by decide) (by decide)
    (by decide) (by decide) (by decide) (by decide)

/-! ### Cache keys (`CacheKeyNamer`, §4.B)

The verbatim templates are asserted by the expected-prefix lambdas of
`VersionedLayerClientImplTest.cpp`. -/

structure ClientConfig where
  hrn : String
  layer : String
  version : Nat
deriving DecidableEq, Repr

/-- `<hrn>::<layer>::<partition_id>::<version>::partition` -/
def partitionCacheKey (cfg : ClientConfig) (pid : String) : String :=
  cfg.hrn ++ "::" ++ cfg.layer ++ "::" ++ pid ++ "::" ++
    toString cfg.version ++ "::partition"

/-- `<hrn>::<layer>::<data_handle>::Data` -/
def dataCacheKey (cfg : ClientConfig) (handle : String) : String :=
  cfg.hrn ++ "::" ++ cfg.layer ++ "::" ++ handle ++ "::Data"

/-- `<hrn>::<layer>::<here_tile>::<version>::<depth>::quadtree` -/
def quadCacheKey (cfg : ClientConfig) (root : TileKey) (depth : Nat) : String :=
  cfg.hrn ++ "::" ++ cfg.layer ++ "::" ++ toString (hereTile root) ++ "::" ++
    toString cfg.version ++ "::" ++ toString depth ++ "::quadtree"

theorem lastChar_append (s t : String) (c : Char)
    (h : t.data.getLast? = some c) : (s ++ t).data.getLast? = some c := by
  rw [String.data_append, List.getLast?_append, h]
  rfl

theorem dataKey_ne_quadKey (cfg cfg' : ClientConfig) (h : String)
    (root : TileKey) (d : Nat) :
    dataCacheKey cfg h ≠ quadCacheKey cfg' root d := by
  intro he
  have h1 : (dataCacheKey cfg h).data.getLast? = some ('a' : Char) := by
    unfold dataCacheKey
    exact lastChar_append _ "::Data" _ (by rfl)
  have h2 : (quadCacheKey cfg' root d).data.getLast? = some ('e' : Char) := by
    unfold quadCacheKey
    exact lastChar_append _ "::quadtree" _ (by rfl)
  rw [he, h2] at h1
  simp at h1

/-! ### Cache-protocol model for removal (§4.C, §4.D)

The cache is an oracle of pure response functions (`Get`, `Contains`, and
the success/failure of `RemoveKeysWithPrefix`); each operation performed
is recorded in a trace, which is what the mock-based tests observe. -/

inductive CacheOp where
  | get (k : String)
  | has (k : String)
  | remove (k : String)
deriving DecidableEq, Repr

structure CacheOracle where
  get : String → Option (List Nat)
  has : String → Bool
  removeOk : String → Bool

def MAX_DEPTH : Nat := 4

/-- The cached quad-tree `d` levels above `tile`, provided it parses and
its `Find(tile)` succeeds (the per-step body of the §4.D walk). -/
def ownsAt (c : CacheOracle) (cfg : ClientConfig) (tile : TileKey) (d : Nat) :
    Option (QuadTreeIndex × String × Nat) :=
  match c.get (quadCacheKey cfg (tile.ancestor d) MAX_DEPTH) with
  | none => none
  | some buf =>
    match load buf with
    | none => none
    | some idx =>
      match idx.find tile with
      | none => none
      | some (h, v) => some (idx, h, v)

/-- Modelled from the spec: the ancestor walk of `QuadTreeRepository`
(§4.D; the repository sources are not in the source tree). Queries the
cache at the tile itself and then outward, stopping at the first cached
quad-tree that owns the tile; also returns the trace of queried keys. -/
def walkQuads (c : CacheOracle) (cfg : ClientConfig) (tile : TileKey) :
    List Nat → Option (TileKey × QuadTreeIndex × String × Nat) × List String
  | [] => (none, [])
  | d :: ds =>
    match ownsAt c cfg tile d with
    | some (idx, h, v) =>
      (some (tile.ancestor d, idx, h, v),
        [quadCacheKey cfg (tile.ancestor d) MAX_DEPTH])
    | none =>
      let res := walkQuads c cfg tile ds
      (res.1, quadCacheKey cfg (tile.ancestor d) MAX_DEPTH :: res.2)

/-- First depth in the walk list at which a cached quad-tree owns `tile`. -/
def firstOwned (c : CacheOracle) (cfg : ClientConfig) (tile : TileKey) :
    List Nat → Option Nat
  | [] => none
  | d :: ds =>
    if (ownsAt c cfg tile d).isSome then some d
    else firstOwned c cfg tile ds

/-- First depth (0 … `MAX_DEPTH`) whose cached quad-tree owns `tile`. -/
def firstOwnedDepth (c : CacheOracle) (cfg : ClientConfig) (tile : TileKey) :
    Option Nat :=
  firstOwned c cfg tile (List.range (MAX_DEPTH + 1))

/-- The blob key referenced by a sub-entry, when its tag resolves. -/
def subEntryDataKey (cfg : ClientConfig) (q : QuadTreeIndex) (e : Nat × Nat) :
    Option String :=
  (parseTag (q.dataSection.drop e.2)).map (fun p => dataCacheKey cfg p.1)

/-- Modelled from the spec: `remove_tile(tile, version)` of §4.D, the path
behind `VersionedLayerClient::RemoveFromCache(TileKey)` (implementation
not in the source tree; observable behaviour fixed by
`RemoveFromCacheTileKey` in `VersionedLayerClientImplTest.cpp`). If no
ancestor quad-tree owns the tile the call is a successful no-op. Otherwise
the blob is removed by data-handle prefix, every sub-entry's blob key is
probed with `Contains`, and the quad-tree key is removed exactly when none
is still cached; the result is `false` iff a required removal failed. -/
def removeTileFromCache (c : CacheOracle) (cfg : ClientConfig)
    (tile : TileKey) : Bool × List CacheOp :=
  match walkQuads c cfg tile (List.range (MAX_DEPTH + 1)) with
  | (none, tr) => (true, tr.map CacheOp.get)
  | (some (root, idx, h, _v), tr) =>
    let blobKey := dataCacheKey cfg h
    let probes := idx.subEntries.filterMap (fun e => subEntryDataKey cfg idx e)
    let evict := probes.all (fun k => !(c.has k))
    let quadKey := quadCacheKey cfg root MAX_DEPTH
    (c.removeOk blobKey && (!evict || c.removeOk quadKey),
      tr.map CacheOp.get ++ (CacheOp.remove blobKey ::
        (probes.map CacheOp.has ++
          (if evict then [CacheOp.remove quadKey] else []))))

/-- The keys of the `Get` operations of a trace, in order. -/
def getOps : List CacheOp → List String :=
  List.filterMap (fun op => match op with
    | CacheOp.get k => some k
    | _ => none)

/-! ### Partition removal (§4.C) -/

structure PartitionOracle where
  getPartition : String → Option String
  removeOk : String → Bool

/-- Modelled from the spec: `remove(partition_id, version)` of
`PartitionRepository` (§4.C; sources not in the tree; observable behaviour
fixed by `RemoveFromCachePartition` in the test file). An absent cached
record is a successful no-op; otherwise the partition key and the blob key
are prefix-removed and the call fails iff either removal fails. -/
def removePartitionFromCache (c : PartitionOracle) (cfg : ClientConfig)
    (pid : String) : Bool × List CacheOp :=
  match c.getPartition (partitionCacheKey cfg pid) with
  | none => (true, [CacheOp.get (partitionCacheKey cfg pid)])
  | some handle =>
    (c.removeOk (partitionCacheKey cfg pid) &&
        c.removeOk (dataCacheKey cfg handle),
      [CacheOp.get (partitionCacheKey cfg pid),
        CacheOp.remove (partitionCacheKey cfg pid),
        CacheOp.remove (dataCacheKey cfg handle)])

/-! ### Walk and trace lemmas -/

theorem walkQuads_cons_none (c : CacheOracle) (cfg : ClientConfig)
    (tile : TileKey) (d : Nat) (ds : List Nat)
    (hd : ownsAt c cfg tile d = none) :
    walkQuads c cfg tile (d :: ds) =
      ((walkQuads c cfg tile ds).1,
        quadCacheKey cfg (tile.ancestor d) MAX_DEPTH ::
          (walkQuads c cfg tile ds).2) := by
  simp [walkQuads, hd]

theorem walkQuads_cons_some (c : CacheOracle) (cfg : ClientConfig)
    (tile : TileKey) (d : Nat) (ds : List Nat) (idx : QuadTreeIndex)
    (hh : String) (vv : Nat)
    (hd : ownsAt c cfg tile d = some (idx, hh, vv)) :
    walkQuads c cfg tile (d :: ds) =
      (some (tile.ancestor d, idx, hh, vv),
        [quadCacheKey cfg (tile.ancestor d) MAX_DEPTH]) := by
  simp [walkQuads, hd]

theorem getOps_append (a b : List CacheOp) :
    getOps (a ++ b) = getOps a ++ getOps b :=
  List.filterMap_append _ _ _

theorem getOps_map_get (l : List String) : getOps (l.map CacheOp.get) = l := by
  induction l with
  | nil => rfl
  | cons a t ih => simpa [getOps, List.filterMap_cons] using ih

theorem getOps_map_has (l : List String) : getOps (l.map CacheOp.has) = [] := by
  induction l with
  | nil => rfl
  | cons a t ih => simpa [getOps, List.filterMap_cons] using ih

theorem getOps_cons_remove (k : String) (l : List CacheOp) :
    getOps (CacheOp.remove k :: l) = getOps l := by
  simp [getOps, List.filterMap_cons]

theorem getOps_ite_remove (b : Bool) (k : String) :
    getOps (if b then [CacheOp.remove k] else []) = [] := by
  cases b <;> rfl

/-- C3: the repository queries the cache for quad keys at the tile itself
and then at level offsets -1 … -4 in that fixed order, stopping at the
first cached quad-tree that owns the tile; when none of the five lookups
yields an owner, removal is a successful no-op that performs only those
five `Get`s. -/
theorem tile_removal_walk_order (c : CacheOracle) (cfg : ClientConfig)
    (tile : TileKey) :
    getOps (removeTileFromCache c cfg tile).2 =
      (List.range (match firstOwnedDepth c cfg tile with
        | some d => d + 1
        | none => MAX_DEPTH + 1)).map
        (fun d => quadCacheKey cfg (tile.ancestor d) MAX_DEPTH) ∧
    (firstOwnedDepth c cfg tile = none →
      removeTileFromCache c cfg tile = (true,
        (List.range (MAX_DEPTH + 1)).map
          (fun d => CacheOp.get (quadCacheKey cfg (tile.ancestor d) MAX_DEPTH)))) := by
  have hrange : List.range (MAX_DEPTH + 1) = [0, 1, 2, 3, 4] := rfl
  by_cases h0 : (ownsAt c cfg tile 0).isSome
  · obtain ⟨⟨idx, hh, vv⟩, hr⟩ := Option.isSome_iff_exists.mp h0
    have hw : walkQuads c cfg tile (List.range (MAX_DEPTH + 1)) =
        (some (tile.ancestor 0, idx, hh, vv),
          [quadCacheKey cfg (tile.ancestor 0) MAX_DEPTH]) := by
      rw [hrange]
      exact walkQuads_cons_some _ _ _ _ _ _ _ _ hr
    have hfo : firstOwnedDepth c cfg tile = some 0 := by
      unfold firstOwnedDepth
      rw [hrange]
      simp [firstOwned, hr]
    constructor
    · simp only [removeTileFromCache, hw, hfo, getOps_append, getOps_map_get,
        getOps_cons_remove, getOps_map_has, getOps_ite_remove, List.append_nil]
      rfl
    · intro hcon
      rw [hfo] at hcon
      cases hcon
  · have hn0 : ownsAt c cfg tile 0 = none := Option.not_isSome_iff_eq_none.mp h0
    by_cases h1 : (ownsAt c cfg tile 1).isSome
    · obtain ⟨⟨idx, hh, vv⟩, hr⟩ := Option.isSome_iff_exists.mp h1
      have hw : walkQuads c cfg tile (List.range (MAX_DEPTH + 1)) =
          (some (tile.ancestor 1, idx, hh, vv),
            [quadCacheKey cfg (tile.ancestor 0) MAX_DEPTH,
              quadCacheKey cfg (tile.ancestor 1) MAX_DEPTH]) := by
        rw [hrange, walkQuads_cons_none _ _ _ _ _ hn0,
          walkQuads_cons_some _ _ _ _ _ _ _ _ hr]
      have hfo : firstOwnedDepth c cfg tile = some 1 := by
        unfold firstOwnedDepth
        rw [hrange]
        simp [firstOwned, hn0, hr]
      constructor
      · simp only [removeTileFromCache, hw, hfo, getOps_append, getOps_map_get,
          getOps_cons_remove, getOps_map_has, getOps_ite_remove, List.append_nil]
        rfl
      · intro hcon
        rw [hfo] at hcon
        cases hcon
    · have hn1 : ownsAt c cfg tile 1 = none := Option.not_isSome_iff_eq_none.mp h1
      by_cases h2 : (ownsAt c cfg tile 2).isSome
      · obtain ⟨⟨idx, hh, vv⟩, hr⟩ := Option.isSome_iff_exists.mp h2
        have hw : walkQuads c cfg tile (List.range (MAX_DEPTH + 1)) =
            (some (tile.ancestor 2, idx, hh, vv),
              [quadCacheKey cfg (tile.ancestor 0) MAX_DEPTH,
                quadCacheKey cfg (tile.ancestor 1) MAX_DEPTH,
                quadCacheKey cfg (tile.ancestor 2) MAX_DEPTH]) := by
          rw [hrange, walkQuads_cons_none _ _ _ _ _ hn0,
            walkQuads_cons_none _ _ _ _ _ hn1,
            walkQuads_cons_some _ _ _ _ _ _ _ _ hr]
        have hfo : firstOwnedDepth c cfg tile = some 2 := by
          unfold firstOwnedDepth
          rw [hrange]
          simp [firstOwned, hn0, hn1, hr]
        constructor
        · simp only [removeTileFromCache, hw, hfo, getOps_append, getOps_map_get,
            getOps_cons_remove, getOps_map_has, getOps_ite_remove, List.append_nil]
          rfl
        · intro hcon
          rw [hfo] at hcon
          cases hcon
      · have hn2 : ownsAt c cfg tile 2 = none := Option.not_isSome_iff_eq_none.mp h2
        by_cases h3 : (ownsAt c cfg tile 3).isSome
        · obtain ⟨⟨idx, hh, vv⟩, hr⟩ := Option.isSome_iff_exists.mp h3
          have hw : walkQuads c cfg tile (List.range (MAX_DEPTH + 1)) =
              (some (tile.ancestor 3, idx, hh, vv),
                [quadCacheKey cfg (tile.ancestor 0) MAX_DEPTH,
                  quadCacheKey cfg (tile.ancestor 1) MAX_DEPTH,
                  quadCacheKey cfg (tile.ancestor 2) MAX_DEPTH,
                  quadCacheKey cfg (tile.ancestor 3) MAX_DEPTH]) := by
            rw [hrange, walkQuads_cons_none _ _ _ _ _ hn0,
              walkQuads_cons_none _ _ _ _ _ hn1,
              walkQuads_cons_none _ _ _ _ _ hn2,
              walkQuads_cons_some _ _ _ _ _ _ _ _ hr]
          have hfo : firstOwnedDepth c cfg tile = some 3 := by
            unfold firstOwnedDepth
            rw [hrange]
            simp [firstOwned, hn0, hn1, hn2, hr]
          constructor
          · simp only [removeTileFromCache, hw, hfo, getOps_append,
              getOps_map_get, getOps_cons_remove, getOps_map_has,
              getOps_ite_remove, List.append_nil]
            rfl
          · intro hcon
            rw [hfo] at hcon
            cases hcon
        · have hn3 : ownsAt c cfg tile 3 = none := Option.not_isSome_iff_eq_none.mp h3
          by_cases h4 : (ownsAt c cfg tile 4).isSome
          · obtain ⟨⟨idx, hh, vv⟩, hr⟩ := Option.isSome_iff_exists.mp h4
            have hw : walkQuads c cfg tile (List.range (MAX_DEPTH + 1)) =
                (some (tile.ancestor 4, idx, hh, vv),
                  [quadCacheKey cfg (tile.ancestor 0) MAX_DEPTH,
                    quadCacheKey cfg (tile.ancestor 1) MAX_DEPTH,
                    quadCacheKey cfg (tile.ancestor 2) MAX_DEPTH,
                    quadCacheKey cfg (tile.ancestor 3) MAX_DEPTH,
                    quadCacheKey cfg (tile.ancestor 4) MAX_DEPTH]) := by
              rw [hrange, walkQuads_cons_none _ _ _ _ _ hn0,
                walkQuads_cons_none _ _ _ _ _ hn1,
                walkQuads_cons_none _ _ _ _ _ hn2,
                walkQuads_cons_none _ _ _ _ _ hn3,
                walkQuads_cons_some _ _ _ _ _ _ _ _ hr]
            have hfo : firstOwnedDepth c cfg tile = some 4 := by
              unfold firstOwnedDepth
              rw [hrange]
              simp [firstOwned, hn0, hn1, hn2, hn3, hr]
            constructor
            · simp only [removeTileFromCache, hw, hfo, getOps_append,
                getOps_map_get, getOps_cons_remove, getOps_map_has,
                getOps_ite_remove, List.append_nil]
              rfl
            · intro hcon
              rw [hfo] at hcon
              cases hcon
          · have hn4 : ownsAt c cfg tile 4 = none :=
              Option.not_isSome_iff_eq_none.mp h4
            have hw : walkQuads c cfg tile (List.range (MAX_DEPTH + 1)) =
                (none,
                  [quadCacheKey cfg (tile.ancestor 0) MAX_DEPTH,
                    quadCacheKey cfg (tile.ancestor 1) MAX_DEPTH,
                    quadCacheKey cfg (tile.ancestor 2) MAX_DEPTH,
                    quadCacheKey cfg (tile.ancestor 3) MAX_DEPTH,
                    quadCacheKey cfg (tile.ancestor 4) MAX_DEPTH]) := by
              rw [hrange, walkQuads_cons_none _ _ _ _ _ hn0,
                walkQuads_cons_none _ _ _ _ _ hn1,
                walkQuads_cons_none _ _ _ _ _ hn2,
                walkQuads_cons_none _ _ _ _ _ hn3,
                walkQuads_cons_none _ _ _ _ _ hn4]
              rfl
            have hfo : firstOwnedDepth c cfg tile = none := by
              unfold firstOwnedDepth
              rw [hrange]
              simp [firstOwned, hn0, hn1, hn2, hn3, hn4]
            constructor
            · simp only [removeTileFromCache, hw, hfo, getOps_map_get]
              rfl
            · intro _
              simp only [removeTileFromCache, hw]
              rfl

/-- C2: once a quad-tree owning the tile is found, the blob is removed by
data-handle prefix and the quad-tree key is removed iff no sub-entry's
blob is still reported cached; the quad key is never removed while a
sub-entry blob remains, and the call returns `false` exactly when a
required removal failed. -/
theorem tile_removal_quadtree_retention (c : CacheOracle) (cfg : ClientConfig)
    (tile root : TileKey) (idx : QuadTreeIndex) (h : String) (v : Nat)
    (tr : List String)
    (hwalk : walkQuads c cfg tile (List.range (MAX_DEPTH + 1)) =
      (some (root, idx, h, v), tr)) :
    ((∃ e ∈ idx.subEntries, ∃ k, subEntryDataKey cfg idx e = some k ∧
        c.has k = true) →
      CacheOp.remove (quadCacheKey cfg root MAX_DEPTH) ∉
        (removeTileFromCache c cfg tile).2) ∧
    (CacheOp.remove (quadCacheKey cfg root MAX_DEPTH) ∈
        (removeTileFromCache c cfg tile).2 ↔
      (∀ e ∈ idx.subEntries, ∀ k, subEntryDataKey cfg idx e = some k →
        c.has k = false)) ∧
    ((removeTileFromCache c cfg tile).1 = false ↔
      (c.removeOk (dataCacheKey cfg h) = false ∨
        ((∀ e ∈ idx.subEntries, ∀ k, subEntryDataKey cfg idx e = some k →
          c.has k = false) ∧
          c.removeOk (quadCacheKey cfg root MAX_DEPTH) = false))) := by
  have hne : dataCacheKey cfg h ≠ quadCacheKey cfg root MAX_DEPTH :=
    dataKey_ne_quadKey cfg cfg h root MAX_DEPTH
  have hne' : quadCacheKey cfg root MAX_DEPTH ≠ dataCacheKey cfg h :=
    fun he => hne he.symm
  have hevict : ((idx.subEntries.filterMap
      (fun e => subEntryDataKey cfg idx e)).all (fun k => !(c.has k)) = true) ↔
      (∀ e ∈ idx.subEntries, ∀ k, subEntryDataKey cfg idx e = some k →
        c.has k = false) := by
    rw [List.all_eq_true]
    constructor
    · intro hall e he k hk
      have hkmem : k ∈ idx.subEntries.filterMap
          (fun e => subEntryDataKey cfg idx e) :=
        List.mem_filterMap.mpr ⟨e, he, hk⟩
      simpa using hall k hkmem
    · intro hp k hk
      obtain ⟨e, he, hke⟩ := List.mem_filterMap.mp hk
      simpa using hp e he k hke
  have hrt : removeTileFromCache c cfg tile =
      (c.removeOk (dataCacheKey cfg h) &&
        (!((idx.subEntries.filterMap (fun e => subEntryDataKey cfg idx e)).all
          (fun k => !(c.has k))) || c.removeOk (quadCacheKey cfg root MAX_DEPTH)),
       tr.map CacheOp.get ++ (CacheOp.remove (dataCacheKey cfg h) ::
         ((idx.subEntries.filterMap (fun e => subEntryDataKey cfg idx e)).map
            CacheOp.has ++
           (if (idx.subEntries.filterMap (fun e => subEntryDataKey cfg idx e)).all
              (fun k => !(c.has k)) then
              [CacheOp.remove (quadCacheKey cfg root MAX_DEPTH)] else [])))) := by
    simp only [removeTileFromCache, hwalk]
  rw [hrt]
  cases hev : (idx.subEntries.filterMap
      (fun e => subEntryDataKey cfg idx e)).all (fun k => !(c.has k)) with
  | false =>
    have hnP : ¬(∀ e ∈ idx.subEntries, ∀ k, subEntryDataKey cfg idx e = some k →
        c.has k = false) := by
      intro hp
      rw [hevict.mpr hp] at hev
      cases hev
    have hnotmem : CacheOp.remove (quadCacheKey cfg root MAX_DEPTH) ∉
        tr.map CacheOp.get ++ (CacheOp.remove (dataCacheKey cfg h) ::
          ((idx.subEntries.filterMap (fun e => subEntryDataKey cfg idx e)).map
            CacheOp.has ++ ([] : List CacheOp))) := by
      simp [List.mem_append, List.mem_cons, List.mem_map, hne']
    refine ⟨fun _ => by simpa [hev] using hnotmem, ?_, ?_⟩
    · simp only [hev, if_false]
      exact iff_of_false (by simpa [hev] using hnotmem) hnP
    · simp only [hev, Bool.not_false, Bool.true_or, Bool.and_true]
      constructor
      · intro hb
        exact Or.inl hb
      · rintro (hb | ⟨hp, _⟩)
        · exact hb
        · exact absurd hp hnP
  | true =>
    have hP := hevict.mp hev
    refine ⟨fun hex => ?_, ?_, ?_⟩
    · obtain ⟨e, he, k, hk, hkt⟩ := hex
      rw [hP e he k hk] at hkt
      cases hkt
    · simp only [hev, if_true]
      refine iff_of_true ?_ hP
      simp [List.mem_append, List.mem_cons]
    · simp only [hev, Bool.not_true, Bool.false_or]
      have hP2 : ∀ (a b : Nat), (a, b) ∈ idx.subEntries →
          ∀ k, subEntryDataKey cfg idx (a, b) = some k → c.has k = false :=
        fun a b hab k hk => hP (a, b) hab k hk
      cases hb : c.removeOk (dataCacheKey cfg h) <;>
        cases hq : c.removeOk (quadCacheKey cfg root MAX_DEPTH) <;>
          simp [hP, hP2] <;>
            try exact hP2

/-- Concrete fixture: client configuration used by the removal witnesses. -/
def cfgW : ClientConfig := ⟨"hrn:here:x", "lay", 7⟩

/-- Concrete fixture: the queried tile (level 4). -/
def tileW : TileKey := ⟨4, 5, 9⟩

/-- Concrete fixture: two sibling nodes under the level-0 root. -/
def nodesW : List IndexData := [⟨⟨4, 5, 9⟩, "h1", 7⟩, ⟨⟨4, 5, 10⟩, "h2", 9⟩]

/-- Concrete fixture: the packed index over `nodesW`. -/
def idxW : QuadTreeIndex := build ⟨0, 0, 0⟩ 4 nodesW

/-- Concrete fixture: a cache holding only the quad-tree at the `-4`
ancestor, with the sibling blob `h2` still cached. -/
def oracleW : CacheOracle :=
  { get := fun k =>
      if k = quadCacheKey cfgW ⟨0, 0, 0⟩ MAX_DEPTH then some idxW.raw else none
    has := fun k => k == dataCacheKey cfgW "h2"
    removeOk := fun _ => true }

/-- Concrete witness for the quad-tree retention behaviour of tile
removal. -/
theorem tile_removal_quadtree_retention_witness :
    ((∃ e ∈ idxW.subEntries, ∃ k, subEntryDataKey cfgW idxW e = some k ∧
        oracleW.has k = true) →
      CacheOp.remove (quadCacheKey cfgW ⟨0, 0, 0⟩ MAX_DEPTH) ∉
        (removeTileFromCache oracleW cfgW tileW).2) ∧
    (CacheOp.remove (quadCacheKey cfgW ⟨0, 0, 0⟩ MAX_DEPTH) ∈
        (removeTileFromCache oracleW cfgW tileW).2 ↔
      (∀ e ∈ idxW.subEntries, ∀ k, subEntryDataKey cfgW idxW e = some k →
        oracleW.has k = false)) ∧
    ((removeTileFromCache oracleW cfgW tileW).1 = false ↔
      (oracleW.removeOk (dataCacheKey cfgW "h1") = false ∨
        ((∀ e ∈ idxW.subEntries, ∀ k, subEntryDataKey cfgW idxW e = some k →
          oracleW.has k = false) ∧
          oracleW.removeOk (quadCacheKey cfgW ⟨0, 0, 0⟩ MAX_DEPTH) = false))) :=
  tile_removal_quadtree_retention oracleW cfgW tileW ⟨0, 0, 0⟩ idxW "h1" 7
    [quadCacheKey cfgW (tileW.ancestor 0) MAX_DEPTH,
      quadCacheKey cfgW (tileW.ancestor 1) MAX_DEPTH,
      quadCacheKey cfgW (tileW.ancestor 2) MAX_DEPTH,
      quadCacheKey cfgW (tileW.ancestor 3) MAX_DEPTH,
      quadCacheKey cfgW (tileW.ancestor 4) MAX_DEPTH] (by decide)

/-- C7: partition removal is an idempotent no-op when no partition record
is cached; when one is cached, exactly the partition key and the blob key
are prefix-removed and the call succeeds iff both removals succeed. -/
theorem partition_removal_idempotent (c : PartitionOracle) (cfg : ClientConfig)
    (pid : String) :
    (c.getPartition (partitionCacheKey cfg pid) = none →
      removePartitionFromCache c cfg pid =
        (true, [CacheOp.get (partitionCacheKey cfg pid)])) ∧
    (∀ handle, c.getPartition (partitionCacheKey cfg pid) = some handle →
      removePartitionFromCache c cfg pid =
        (c.removeOk (partitionCacheKey cfg pid) &&
            c.removeOk (dataCacheKey cfg handle),
          [CacheOp.get (partitionCacheKey cfg pid),
            CacheOp.remove (partitionCacheKey cfg pid),
            CacheOp.remove (dataCacheKey cfg handle)]) ∧
      ((removePartitionFromCache c cfg pid).1 = true ↔
        (c.removeOk (partitionCacheKey cfg pid) = true ∧
          c.removeOk (dataCacheKey cfg handle) = true))) := by
  constructor
  · intro h
    simp [removePartitionFromCache, h]
  · intro handle h
    constructor
    · simp [removePartitionFromCache, h]
    · simp [removePartitionFromCache, h, Bool.and_eq_true]

/-- Concrete witness for partition removal: an empty cache is a successful
no-op, and a cached partition issues exactly the two prefix removals. -/
theorem partition_removal_idempotent_witness :
    removePartitionFromCache ⟨fun _ => none, fun _ => true⟩ cfgW "269" =
      (true, [CacheOp.get (partitionCacheKey cfgW "269")]) ∧
    removePartitionFromCache ⟨fun _ => some "H", fun _ => true⟩ cfgW "269" =
      (true, [CacheOp.get (partitionCacheKey cfgW "269"),
        CacheOp.remove (partitionCacheKey cfgW "269"),
        CacheOp.remove (dataCacheKey cfgW "H")]) := by
  constructor
  · exact (partition_removal_idempotent ⟨fun _ => none, fun _ => true⟩
      cfgW "269").1 rfl
  · have h := ((partition_removal_idempotent ⟨fun _ => some "H", fun _ => true⟩
      cfgW "269").2 "H" rfl).1
    simpa using h

/-! ### Client state: cache store, protection registry, TTL (§3, §4.F) -/

inductive CacheVal where
  | blob (b : List Nat)
  | quadBuf (b : List Nat)
deriving DecidableEq, Repr

structure CacheEntry where
  val : CacheVal
  expiry : Nat
deriving DecidableEq, Repr

/-- Client-side state: the cache store as a key → entry map, and the
protection registry as a refcount association list (an entry is removed
at count 0, per the spec's multiset model). -/
structure ClientState where
  cache : String → Option CacheEntry
  reg : List (String × Nat)

/-- Refcount of a key in the registry. -/
def countOf : List (String × Nat) → String → Nat
  | [], _ => 0
  | e :: t, k => if e.1 = k then e.2 else countOf t k

/-- Increment a key's refcount, inserting it at count 1 when absent. -/
def bump : List (String × Nat) → String → List (String × Nat)
  | [], k => [(k, 1)]
  | e :: t, k => if e.1 = k then (e.1, e.2 + 1) :: t else e :: bump t k

/-- Decrement a key's refcount, dropping the entry at count 0. -/
def decr : List (String × Nat) → String → List (String × Nat)
  | [], _ => []
  | e :: t, k =>
    if e.1 = k then (if e.2 ≤ 1 then t else (e.1, e.2 - 1) :: t)
    else e :: decr t k

/-- Modelled from the spec: resolution of a tile's owning quad-tree from
the cache only — the §4.D ancestor walk restricted to cached entries, as
used by `Protect`, `Release` and `IsCached` (no network fetch). -/
def resolveTileAux (cache : String → Option CacheEntry) (cfg : ClientConfig)
    (tile : TileKey) : List Nat → Option (TileKey × QuadTreeIndex × String)
  | [] => none
  | d :: ds =>
    match cache (quadCacheKey cfg (tile.ancestor d) MAX_DEPTH) with
    | some ⟨CacheVal.quadBuf b, _⟩ =>
      (match (load b).bind
          (fun idx => (idx.find tile).map (fun p => (idx, p.1))) with
        | some (idx, h) => some (tile.ancestor d, idx, h)
        | none => resolveTileAux cache cfg tile ds)
    | _ => resolveTileAux cache cfg tile ds

/-- Walk the tile itself and its ancestors `-1 … -MAX_DEPTH`. -/
def resolveTile (cache : String → Option CacheEntry) (cfg : ClientConfig)
    (tile : TileKey) : Option (TileKey × QuadTreeIndex × String) :=
  resolveTileAux cache cfg tile (List.range (MAX_DEPTH + 1))

/-- Modelled from the test's observable: `IsCached(tile)` — the tile
resolves from cached quad-trees and its blob entry is present. -/
def isCachedTile (st : ClientState) (cfg : ClientConfig) (tile : TileKey) :
    Bool :=
  match resolveTile st.cache cfg tile with
  | some (_, _, h) => (st.cache (dataCacheKey cfg h)).isSome
  | none => false

/-- Modelled from the spec: `protect(tile_keys)` (§4.F). Each tile is
resolved from the cache only; every resolved tile pins its blob key and
its covering quad-tree key by one refcount each. The call returns `true`
iff at least one tile was referenced; a wholly failed call leaves the
state untouched. -/
def protect (cfg : ClientConfig) (st : ClientState) (tiles : List TileKey) :
    Bool × ClientState :=
  let res := tiles.filterMap (fun t => resolveTile st.cache cfg t)
  if res.isEmpty then (false, st)
  else
    let reg2 := res.foldl
      (fun r p => bump (bump r (dataCacheKey cfg p.2.2))
        (quadCacheKey cfg p.1 MAX_DEPTH)) st.reg
    (true, { st with reg := reg2 })

/-- Whether a tile to be released currently resolves and is protected. -/
def releasable (cfg : ClientConfig) (st : ClientState) (t : TileKey) : Bool :=
  match resolveTile st.cache cfg t with
  | some (_, _, h) => decide (1 ≤ countOf st.reg (dataCacheKey cfg h))
  | none => false

/-- One release step over a pre-resolved `(root, index, handle)` triple:
decrement the blob refcount (evicting the blob record at zero), decrement
the quad refcount, and unpin and evict the quad-tree key when its count is
zero and no sub-entry blob key is still protected. -/
def applyRelease (cfg : ClientConfig) (st : ClientState)
    (p : TileKey × QuadTreeIndex × String) : ClientState :=
  let bk := dataCacheKey cfg p.2.2
  let qk := quadCacheKey cfg p.1 MAX_DEPTH
  let reg1 := decr st.reg bk
  let cache1 := if countOf reg1 bk = 0 then
      (fun k => if k = bk then none else st.cache k) else st.cache
  let reg2 := decr reg1 qk
  let stillProtected := p.2.1.subEntries.any (fun e =>
    match subEntryDataKey cfg p.2.1 e with
    | some k => decide (1 ≤ countOf reg2 k)
    | none => false)
  if countOf reg2 qk = 0 && !stillProtected then
    ⟨fun k => if k = qk then none else cache1 k, reg2⟩
  else ⟨cache1, reg2⟩

/-- Modelled from the spec: `release(tile_keys)` (§4.F), all-or-nothing
(the spec's safe choice for mixed lists): `false` when any supplied tile
does not resolve or is not currently protected, otherwise the symmetric
decrement of `protect`, evicting fully unpinned records. -/
def release (cfg : ClientConfig) (st : ClientState) (tiles : List TileKey) :
    Bool × ClientState :=
  if tiles.all (fun t => releasable cfg st t) then
    (true, (tiles.filterMap (fun t => resolveTile st.cache cfg t)).foldl
      (fun s p => applyRelease cfg s p) st)
  else (false, st)

/-- TTL eviction at time `now`: an expired entry is dropped unless its key
is protected (refcount > 0) — the cache store consults the registry on
eviction (§4.F). -/
def evict (st : ClientState) (now : Nat) : ClientState :=
  { st with cache := fun k =>
      match st.cache k with
      | some e => if e.expiry ≤ now ∧ countOf st.reg k = 0 then none else some e
      | none => none }

/-- Store a fetched blob under a key with its TTL expiry. -/
def putBlob (st : ClientState) (k : String) (b : List Nat) (expiry : Nat) :
    ClientState :=
  { st with cache := fun k2 =>
      if k2 = k then some ⟨CacheVal.blob b, expiry⟩ else st.cache k2 }

/-! ### Registry and resolution lemmas -/

theorem countOf_bump_self (r : List (String × Nat)) (k : String) :
    countOf (bump r k) k = countOf r k + 1 := by
  induction r with
  | nil => simp [bump, countOf]
  | cons e t ih =>
    by_cases he : e.1 = k
    · simp [bump, countOf, he]
    · simp [bump, countOf, he, ih]

theorem countOf_bump_other (r : List (String × Nat)) {k k' : String}
    (h : k' ≠ k) : countOf (bump r k) k' = countOf r k' := by
  have h2 : ¬(k = k') := fun he => h he.symm
  induction r with
  | nil => simp [bump, countOf, h2]
  | cons e t ih =>
    by_cases he : e.1 = k
    · simp [bump, countOf, he, h2]
    · by_cases he2 : e.1 = k'
      · simp [bump, countOf, he, he2, ih, h]
      · simp [bump, countOf, he, he2, ih]

theorem countOf_bump_le (r : List (String × Nat)) (k k' : String) :
    countOf r k' ≤ countOf (bump r k) k' := by
  by_cases h : k' = k
  · subst h
    rw [countOf_bump_self]
    omega
  · rw [countOf_bump_other r h]

theorem countOf_protect_fold_le (cfg : ClientConfig)
    (ps : List (TileKey × QuadTreeIndex × String))
    (reg : List (String × Nat)) (k : String) :
    countOf reg k ≤ countOf (ps.foldl
      (fun r p => bump (bump r (dataCacheKey cfg p.2.2))
        (quadCacheKey cfg p.1 MAX_DEPTH)) reg) k := by
  induction ps generalizing reg with
  | nil => simp
  | cons p ts ih =>
    refine le_trans ?_ (ih _)
    exact le_trans (countOf_bump_le _ _ _) (countOf_bump_le _ _ _)

theorem countOf_protect_fold_mem (cfg : ClientConfig)
    (ps : List (TileKey × QuadTreeIndex × String))
    (reg : List (String × Nat)) (p : TileKey × QuadTreeIndex × String)
    (hp : p ∈ ps) :
    1 ≤ countOf (ps.foldl
      (fun r q => bump (bump r (dataCacheKey cfg q.2.2))
        (quadCacheKey cfg q.1 MAX_DEPTH)) reg) (dataCacheKey cfg p.2.2) ∧
    1 ≤ countOf (ps.foldl
      (fun r q => bump (bump r (dataCacheKey cfg q.2.2))
        (quadCacheKey cfg q.1 MAX_DEPTH)) reg) (quadCacheKey cfg p.1 MAX_DEPTH) := by
  induction ps generalizing reg with
  | nil => cases hp
  | cons q ts ih =>
    rcases List.mem_cons.mp hp with rfl | hp
    · constructor
      · refine le_trans ?_ (countOf_protect_fold_le cfg ts _ _)
        refine le_trans ?_ (countOf_bump_le _ _ _)
        rw [countOf_bump_self]
        omega
      · refine le_trans ?_ (countOf_protect_fold_le cfg ts _ _)
        rw [countOf_bump_self]
        omega
    · exact ih _ hp

theorem resolveTileAux_congr (c1 c2 : String → Option CacheEntry)
    (cfg : ClientConfig) (tile : TileKey) (ds : List Nat)
    (hagree : ∀ d ∈ ds, c1 (quadCacheKey cfg (tile.ancestor d) MAX_DEPTH) =
      c2 (quadCacheKey cfg (tile.ancestor d) MAX_DEPTH)) :
    resolveTileAux c1 cfg tile ds = resolveTileAux c2 cfg tile ds := by
  induction ds with
  | nil => rfl
  | cons d ds ih =>
    have hd := hagree d (List.mem_cons_self _ _)
    have hrest := ih (fun x hx => hagree x (List.mem_cons_of_mem _ hx))
    simp only [resolveTileAux, hd]
    cases c2 (quadCacheKey cfg (tile.ancestor d) MAX_DEPTH) with
    | none => exact hrest
    | some e =>
      obtain ⟨val, exp⟩ := e
      cases val with
      | blob b => exact hrest
      | quadBuf b =>
        cases hload : (load b).bind
            (fun idx => (idx.find tile).map (fun p => (idx, p.1))) with
        | none =>
          simp only [hload]
          exact hrest
        | some p =>
          obtain ⟨idx, hh⟩ := p
          simp only [hload]

theorem evict_cache_cases (st : ClientState) (now : Nat) (k : String) :
    (evict st now).cache k = st.cache k ∨ (evict st now).cache k = none := by
  simp only [evict]
  cases hc : st.cache k with
  | none => exact Or.inr rfl
  | some e =>
    by_cases hcond : e.expiry ≤ now ∧ countOf st.reg k = 0
    · exact Or.inr (by simp [hcond])
    · exact Or.inl (by simp [hcond])

theorem evict_cache_protected (st : ClientState) (now : Nat) (k : String)
    (hk : 1 ≤ countOf st.reg k) : (evict st now).cache k = st.cache k := by
  simp only [evict]
  cases hc : st.cache k with
  | none => rfl
  | some e =>
    have : ¬(e.expiry ≤ now ∧ countOf st.reg k = 0) := by omega
    simp [this]

theorem resolveTileAux_evict (st : ClientState) (now : Nat)
    (cfg : ClientConfig) (tile : TileKey) (ds : List Nat)
    (r : TileKey) (i : QuadTreeIndex) (h : String)
    (hres : resolveTileAux st.cache cfg tile ds = some (r, i, h))
    (hq : 1 ≤ countOf st.reg (quadCacheKey cfg r MAX_DEPTH)) :
    resolveTileAux (evict st now).cache cfg tile ds = some (r, i, h) := by
  induction ds with
  | nil => cases hres
  | cons d ds ih =>
    cases hc : st.cache (quadCacheKey cfg (tile.ancestor d) MAX_DEPTH) with
    | none =>
      have hn : (evict st now).cache
          (quadCacheKey cfg (tile.ancestor d) MAX_DEPTH) = none := by
        simp [evict, hc]
      rw [resolveTileAux, hc] at hres
      rw [resolveTileAux, hn]
      exact ih hres
    | some e =>
      obtain ⟨val, exp⟩ := e
      cases val with
      | blob b =>
        rw [resolveTileAux, hc] at hres
        rcases evict_cache_cases st now
            (quadCacheKey cfg (tile.ancestor d) MAX_DEPTH) with hsame | hnone
        · rw [resolveTileAux, hsame, hc]
          exact ih hres
        · rw [resolveTileAux, hnone]
          exact ih hres
      | quadBuf b =>
        cases hstep : (load b).bind
            (fun idx => (idx.find tile).map (fun p => (idx, p.1))) with
        | none =>
          rw [resolveTileAux, hc] at hres
          simp only [hstep] at hres
          rcases evict_cache_cases st now
              (quadCacheKey cfg (tile.ancestor d) MAX_DEPTH) with hsame | hnone
          · rw [resolveTileAux, hsame, hc]
            simp only [hstep]
            exact ih hres
          · rw [resolveTileAux, hnone]
            exact ih hres
        | some p =>
          rw [resolveTileAux, hc] at hres
          simp only [hstep] at hres
          obtain ⟨idx, hh⟩ := p
          have heq : tile.ancestor d = r ∧ idx = i ∧ hh = h := by
            constructor
            · exact congrArg (fun o => (Option.getD o (r, i, h)).1) hres
            constructor
            · exact congrArg (fun o => (Option.getD o (r, i, h)).2.1) hres
            · exact congrArg (fun o => (Option.getD o (r, i, h)).2.2) hres
          obtain ⟨hr1, hr2, hr3⟩ := heq
          have hkeep : (evict st now).cache
              (quadCacheKey cfg (tile.ancestor d) MAX_DEPTH) =
              some ⟨CacheVal.quadBuf b, exp⟩ := by
            rw [hr1] at hc ⊢
            rw [evict_cache_protected st now _ hq, hc]
          rw [resolveTileAux, hkeep]
          simp only [hstep]
          rw [hr1, hr2, hr3]

theorem dataCacheKey_inj {cfg : ClientConfig} {h1 h2 : String}
    (he : dataCacheKey cfg h1 = dataCacheKey cfg h2) : h1 = h2 := by
  unfold dataCacheKey at he
  have hd := congrArg String.data he
  simp only [String.data_append] at hd
  exact String.ext (List.append_cancel_left (List.append_cancel_right hd))

theorem applyRelease_reg (cfg : ClientConfig) (st : ClientState)
    (p : TileKey × QuadTreeIndex × String) :
    (applyRelease cfg st p).reg =
      decr (decr st.reg (dataCacheKey cfg p.2.2))
        (quadCacheKey cfg p.1 MAX_DEPTH) := by
  unfold applyRelease
  dsimp only
  split <;> rfl

theorem releasable_of_zero_reg (cfg : ClientConfig) (st : ClientState)
    (t : TileKey) (hz : ∀ k, countOf st.reg k = 0) :
    releasable cfg st t = false := by
  unfold releasable
  cases hres : resolveTile st.cache cfg t with
  | none => rfl
  | some p =>
    obtain ⟨r, i, h⟩ := p
    simp [hz (dataCacheKey cfg h)]

theorem all_false_of_mem {α : Type} {f : α → Bool} {l : List α} {x : α}
    (hx : x ∈ l) (hf : f x = false) : l.all f = false := by
  cases hall : l.all f with
  | false => rfl
  | true =>
    have := List.all_eq_true.mp hall x hx
    rw [hf] at this
    cases this

/-! ### C4: protect and release of tile keys (§4.F) -/

theorem countOf_nil (k : String) : countOf [] k = 0 := rfl

theorem countOf_cons_self (t : List (String × Nat)) (k : String) (n : Nat) :
    countOf ((k, n) :: t) k = n := by
  simp [countOf]

theorem countOf_cons_ne (t : List (String × Nat)) (a : String) (n : Nat)
    {k : String} (h : a ≠ k) : countOf ((a, n) :: t) k = countOf t k := by
  simp [countOf, h]

theorem decr_cons_one (t : List (String × Nat)) (k : String) :
    decr ((k, 1) :: t) k = t := by
  simp [decr]

theorem decr_cons_two (t : List (String × Nat)) (k : String) :
    decr ((k, 2) :: t) k = (k, 1) :: t := by
  simp [decr]

theorem decr_cons_ne (t : List (String × Nat)) (a : String) (n : Nat)
    {k : String} (h : a ≠ k) : decr ((a, n) :: t) k = (a, n) :: decr t k := by
  simp [decr, h]

theorem any_protected_nil (cfg : ClientConfig) (q : QuadTreeIndex)
    (l : List (Nat × Nat)) :
    (l.any (fun e => match subEntryDataKey cfg q e with
      | some k => decide (1 ≤ countOf [] k)
      | none => false)) = false := by
  induction l with
  | nil => rfl
  | cons a t ih =>
    rw [List.any_cons]
    have ha : (match subEntryDataKey cfg q a with
        | some k => decide (1 ≤ countOf [] k)
        | none => false) = false := by
      cases subEntryDataKey cfg q a with
      | some k => simp [countOf]
      | none => rfl
    rw [ha, ih]
    rfl

/-- C4: over a fresh registry, protecting two cached tiles that share one
quad-tree succeeds and pins each blob key once and the quad key twice;
releasing unprotected tiles fails and changes nothing; releasing both
restores every refcount; a second release fails; releasing only the first
tile keeps the second tile cached and keeps the shared quad-tree entry,
and the final release of the second tile drops its blob and the now
unpinned quad-tree entry. -/
theorem protect_release_roundtrip (cfg : ClientConfig) (st : ClientState)
    (t1 t2 root : TileKey) (idx : QuadTreeIndex) (h1 h2 : String)
    (hreg : st.reg = [])
    (hr1 : resolveTile st.cache cfg t1 = some (root, idx, h1))
    (hr2 : resolveTile st.cache cfg t2 = some (root, idx, h2))
    (hne : h1 ≠ h2)
    (hb2 : (st.cache (dataCacheKey cfg h2)).isSome = true) :
    (protect cfg st [t1, t2]).1 = true ∧
    (release cfg st [t1, t2]).1 = false ∧
    (release cfg (protect cfg st [t1, t2]).2 [t1, t2]).1 = true ∧
    (∀ k, countOf (release cfg (protect cfg st [t1, t2]).2 [t1, t2]).2.reg k =
      countOf st.reg k) ∧
    (release cfg (release cfg (protect cfg st [t1, t2]).2 [t1, t2]).2
      [t1, t2]).1 = false ∧
    (release cfg (protect cfg st [t1, t2]).2 [t1]).1 = true ∧
    isCachedTile (release cfg (protect cfg st [t1, t2]).2 [t1]).2 cfg t2 = true ∧
    (release cfg (protect cfg st [t1, t2]).2 [t1]).2.cache
      (quadCacheKey cfg root MAX_DEPTH) =
      st.cache (quadCacheKey cfg root MAX_DEPTH) ∧
    (release cfg (release cfg (protect cfg st [t1, t2]).2 [t1]).2 [t2]).1 =
      true ∧
    (release cfg (release cfg (protect cfg st [t1, t2]).2 [t1]).2 [t2]).2.cache
      (dataCacheKey cfg h2) = none ∧
    (release cfg (release cfg (protect cfg st [t1, t2]).2 [t1]).2 [t2]).2.cache
      (quadCacheKey cfg root MAX_DEPTH) = none := by
  have hq1 : dataCacheKey cfg h1 ≠ quadCacheKey cfg root MAX_DEPTH :=
    dataKey_ne_quadKey cfg cfg h1 root MAX_DEPTH
  have hq1s : quadCacheKey cfg root MAX_DEPTH ≠ dataCacheKey cfg h1 :=
    fun he => hq1 he.symm
  have hq2 : dataCacheKey cfg h2 ≠ quadCacheKey cfg root MAX_DEPTH :=
    dataKey_ne_quadKey cfg cfg h2 root MAX_DEPTH
  have hq2s : quadCacheKey cfg root MAX_DEPTH ≠ dataCacheKey cfg h2 :=
    fun he => hq2 he.symm
  have h12 : dataCacheKey cfg h1 ≠ dataCacheKey cfg h2 :=
    fun he => hne (dataCacheKey_inj he)
  have h21 : dataCacheKey cfg h2 ≠ dataCacheKey cfg h1 :=
    fun he => h12 he.symm
  have hres12 : [t1, t2].filterMap (fun t => resolveTile st.cache cfg t) =
      [(root, idx, h1), (root, idx, h2)] := by
    simp [List.filterMap_cons, hr1, hr2]
  have h_protect : protect cfg st [t1, t2] =
      (true, ⟨st.cache, [(dataCacheKey cfg h1, 1),
        (quadCacheKey cfg root MAX_DEPTH, 2), (dataCacheKey cfg h2, 1)]⟩) := by
    unfold protect
    rw [hres12, hreg]
    simp [bump, hq1, hq1s, hq2, hq2s, h12, h21]
  have hrel_false : (release cfg st [t1, t2]).1 = false := by
    have hrel1 : releasable cfg st t1 = false := by
      unfold releasable
      rw [hr1, hreg]
      simp [countOf]
    unfold release
    rw [all_false_of_mem (List.mem_cons_self _ _) hrel1]
    simp
  have e1 : releasable cfg ⟨st.cache, [(dataCacheKey cfg h1, 1),
      (quadCacheKey cfg root MAX_DEPTH, 2), (dataCacheKey cfg h2, 1)]⟩ t1 =
      true := by
    unfold releasable
    dsimp only
    rw [hr1]
    dsimp only
    rw [countOf_cons_self]
    decide
  have e2 : releasable cfg ⟨st.cache, [(dataCacheKey cfg h1, 1),
      (quadCacheKey cfg root MAX_DEPTH, 2), (dataCacheKey cfg h2, 1)]⟩ t2 =
      true := by
    unfold releasable
    dsimp only
    rw [hr2]
    dsimp only
    rw [countOf_cons_ne _ _ _ h12, countOf_cons_ne _ _ _ hq2s,
      countOf_cons_self]
    decide
  have hall1 : [t1, t2].all (fun t => releasable cfg
      (⟨st.cache, [(dataCacheKey cfg h1, 1),
        (quadCacheKey cfg root MAX_DEPTH, 2),
        (dataCacheKey cfg h2, 1)]⟩ : ClientState) t) = true := by
    simp only [List.all_cons, List.all_nil]
    rw [e1, e2]
    rfl
  have halla : [t1].all (fun t => releasable cfg
      (⟨st.cache, [(dataCacheKey cfg h1, 1),
        (quadCacheKey cfg root MAX_DEPTH, 2),
        (dataCacheKey cfg h2, 1)]⟩ : ClientState) t) = true := by
    simp only [List.all_cons, List.all_nil]
    rw [e1]
    rfl
  have step1 : applyRelease cfg ⟨st.cache, [(dataCacheKey cfg h1, 1),
      (quadCacheKey cfg root MAX_DEPTH, 2), (dataCacheKey cfg h2, 1)]⟩
      (root, idx, h1) =
      ⟨fun k => if k = dataCacheKey cfg h1 then none else st.cache k,
        [(quadCacheKey cfg root MAX_DEPTH, 1), (dataCacheKey cfg h2, 1)]⟩ := by
    unfold applyRelease
    dsimp only
    simp only [decr_cons_one, countOf_cons_ne _ _ _ hq1s,
      countOf_cons_ne _ _ _ h21, countOf_nil, decr_cons_two,
      countOf_cons_self]
    simp
  have step2 : applyRelease cfg ⟨fun k =>
      if k = dataCacheKey cfg h1 then none else st.cache k,
      [(quadCacheKey cfg root MAX_DEPTH, 1), (dataCacheKey cfg h2, 1)]⟩
      (root, idx, h2) =
      ⟨fun k => if k = quadCacheKey cfg root MAX_DEPTH then none
        else if k = dataCacheKey cfg h2 then none
        else if k = dataCacheKey cfg h1 then none else st.cache k, []⟩ := by
    unfold applyRelease
    dsimp only
    simp only [decr_cons_ne _ _ _ hq2s, decr_cons_one,
      countOf_cons_ne _ _ _ hq2s, countOf_nil]
    simp
    intro x y hmem hmatch
    exact absurd hmatch (by cases subEntryDataKey cfg idx (x, y) <;> simp)
  have h_rel_two : release cfg ⟨st.cache, [(dataCacheKey cfg h1, 1),
      (quadCacheKey cfg root MAX_DEPTH, 2), (dataCacheKey cfg h2, 1)]⟩
      [t1, t2] =
      (true, ⟨fun k => if k = quadCacheKey cfg root MAX_DEPTH then none
        else if k = dataCacheKey cfg h2 then none
        else if k = dataCacheKey cfg h1 then none else st.cache k, []⟩) := by
    unfold release
    rw [hall1, if_pos rfl]
    simp only [hres12, List.foldl_cons, List.foldl_nil, step1, step2]
  have hresa : [t1].filterMap (fun t => resolveTile st.cache cfg t) =
      [(root, idx, h1)] := by
    simp [List.filterMap_cons, hr1]
  have h_rel_one : release cfg ⟨st.cache, [(dataCacheKey cfg h1, 1),
      (quadCacheKey cfg root MAX_DEPTH, 2), (dataCacheKey cfg h2, 1)]⟩ [t1] =
      (true, ⟨fun k => if k = dataCacheKey cfg h1 then none else st.cache k,
        [(quadCacheKey cfg root MAX_DEPTH, 1),
          (dataCacheKey cfg h2, 1)]⟩) := by
    unfold release
    rw [halla, if_pos rfl]
    simp only [hresa, List.foldl_cons, List.foldl_nil, step1]
  have hres2b : resolveTile (fun k =>
      if k = dataCacheKey cfg h1 then none else st.cache k) cfg t2 =
      some (root, idx, h2) := by
    rw [← hr2]
    unfold resolveTile
    exact resolveTileAux_congr _ _ cfg t2 _ (fun d _ => by
      have hk : quadCacheKey cfg (t2.ancestor d) MAX_DEPTH ≠
          dataCacheKey cfg h1 := fun he =>
        dataKey_ne_quadKey cfg cfg h1 (t2.ancestor d) MAX_DEPTH he.symm
      simp only [if_neg hk])
  have eB : releasable cfg ⟨fun k =>
      if k = dataCacheKey cfg h1 then none else st.cache k,
      [(quadCacheKey cfg root MAX_DEPTH, 1), (dataCacheKey cfg h2, 1)]⟩ t2 =
      true := by
    unfold releasable
    dsimp only
    rw [hres2b]
    dsimp only
    rw [countOf_cons_ne _ _ _ hq2s, countOf_cons_self]
    decide
  have hallB : [t2].all (fun t => releasable cfg
      (⟨fun k => if k = dataCacheKey cfg h1 then none else st.cache k,
        [(quadCacheKey cfg root MAX_DEPTH, 1),
          (dataCacheKey cfg h2, 1)]⟩ : ClientState) t) = true := by
    simp only [List.all_cons, List.all_nil]
    rw [eB]
    rfl
  have hresB : [t2].filterMap (fun t => resolveTile (fun k =>
      if k = dataCacheKey cfg h1 then none else st.cache k) cfg t) =
      [(root, idx, h2)] := by
    simp [List.filterMap_cons, hres2b]
  have h_rel_B : release cfg ⟨fun k =>
      if k = dataCacheKey cfg h1 then none else st.cache k,
      [(quadCacheKey cfg root MAX_DEPTH, 1), (dataCacheKey cfg h2, 1)]⟩
      [t2] =
      (true, ⟨fun k => if k = quadCacheKey cfg root MAX_DEPTH then none
        else if k = dataCacheKey cfg h2 then none
        else if k = dataCacheKey cfg h1 then none else st.cache k, []⟩) := by
    unfold release
    rw [hallB, if_pos rfl]
    simp only [hresB, List.foldl_cons, List.foldl_nil, step2]
  refine ⟨?_, hrel_false, ?_, ?_, ?_, ?_, ?_, ?_, ?_, ?_, ?_⟩
  · simp only [h_protect]
  · simp only [h_protect, h_rel_two]
  · intro k
    simp only [h_protect, h_rel_two, hreg]
  · simp only [h_protect, h_rel_two]
    have hz : ∀ k, countOf ([] : List (String × Nat)) k = 0 := fun _ => rfl
    have hf1 : releasable cfg ⟨fun k =>
        if k = quadCacheKey cfg root MAX_DEPTH then none
        else if k = dataCacheKey cfg h2 then none
        else if k = dataCacheKey cfg h1 then none else st.cache k, []⟩ t1 =
        false := releasable_of_zero_reg cfg _ t1 hz
    unfold release
    rw [all_false_of_mem (List.mem_cons_self _ _) hf1]
    simp
  · simp only [h_protect, h_rel_one]
  · simp only [h_protect, h_rel_one]
    unfold isCachedTile
    simp only [hres2b]
    rw [if_neg h21]
    exact hb2
  · simp only [h_protect, h_rel_one]
    rw [if_neg hq1s]
  · simp only [h_protect, h_rel_one, h_rel_B]
  · simp only [h_protect, h_rel_one, h_rel_B]
    rw [if_neg hq2]
    simp
  · simp only [h_protect, h_rel_one, h_rel_B]
    simp

/-- Concrete client configuration for the protect/release scenario. -/
def cfg4W : ClientConfig := ⟨"hrn:here:c4", "lay", 7⟩

/-- Concrete packed quad-tree covering the two protected tiles. -/
def idx4W : QuadTreeIndex :=
  build ⟨0, 0, 0⟩ 4 [⟨⟨4, 5, 9⟩, "h1", 7⟩, ⟨⟨4, 5, 10⟩, "h2", 9⟩]

/-- Concrete client state: cached quad-tree and both blobs, empty registry. -/
def st4W : ClientState :=
  ⟨fun k =>
    if k = quadCacheKey cfg4W ⟨0, 0, 0⟩ MAX_DEPTH then
      some ⟨CacheVal.quadBuf idx4W.raw, 100⟩
    else if k = dataCacheKey cfg4W "h1" then some ⟨CacheVal.blob [1], 100⟩
    else if k = dataCacheKey cfg4W "h2" then some ⟨CacheVal.blob [2], 100⟩
    else none, []⟩

theorem protect_release_roundtrip_witness :
    (protect cfg4W st4W [⟨4, 5, 9⟩, ⟨4, 5, 10⟩]).1 = true :=
  (protect_release_roundtrip cfg4W st4W ⟨4, 5, 9⟩ ⟨4, 5, 10⟩ ⟨0, 0, 0⟩ idx4W
    "h1" "h2" rfl (by decide) (by decide) (by decide) (by decide)).1

/-! ### C5: TTL eviction bypass for protected keys (§4.F) -/

/-- C5: a key with protection refcount above zero is never evicted by TTL
expiration: protecting a resolvable cached tile succeeds, the tile is
still reported cached after the cache expiration elapses over the
protected state, while an unprotected expired key is removed by the same
eviction pass. -/
theorem ttl_protected_keys_survive (cfg : ClientConfig) (st : ClientState)
    (tiles : List TileKey) (now : Nat) (t root : TileKey)
    (idx : QuadTreeIndex) (h : String) (k : String) (e : CacheEntry)
    (ht : t ∈ tiles)
    (hres : resolveTile st.cache cfg t = some (root, idx, h))
    (hblob : (st.cache (dataCacheKey cfg h)).isSome = true)
    (hk : st.cache k = some e)
    (hexp : e.expiry ≤ now)
    (hz : countOf st.reg k = 0) :
    (∀ k2, 1 ≤ countOf st.reg k2 → (evict st now).cache k2 = st.cache k2) ∧
    (protect cfg st tiles).1 = true ∧
    isCachedTile (evict (protect cfg st tiles).2 now) cfg t = true ∧
    (evict st now).cache k = none := by
  have hp : (root, idx, h) ∈
      tiles.filterMap (fun x => resolveTile st.cache cfg x) :=
    List.mem_filterMap.mpr ⟨t, ht, hres⟩
  have hemp : (tiles.filterMap (fun x => resolveTile st.cache cfg x)).isEmpty =
      false := by
    cases hl : tiles.filterMap (fun x => resolveTile st.cache cfg x) with
    | nil => rw [hl] at hp; cases hp
    | cons a l => rfl
  have hprot : protect cfg st tiles = (true, (⟨st.cache,
      (tiles.filterMap (fun x => resolveTile st.cache cfg x)).foldl
        (fun r p => bump (bump r (dataCacheKey cfg p.2.2))
          (quadCacheKey cfg p.1 MAX_DEPTH)) st.reg⟩ : ClientState)) := by
    unfold protect
    simp only [hemp, Bool.false_eq_true, if_false]
  refine ⟨fun k2 hk2 => evict_cache_protected st now k2 hk2, ?_, ?_, ?_⟩
  · rw [hprot]
  · rw [hprot]
    have hq := (countOf_protect_fold_mem cfg
      (tiles.filterMap (fun x => resolveTile st.cache cfg x)) st.reg
      (root, idx, h) hp).2
    have hb := (countOf_protect_fold_mem cfg
      (tiles.filterMap (fun x => resolveTile st.cache cfg x)) st.reg
      (root, idx, h) hp).1
    have hres2 : resolveTileAux (⟨st.cache,
        (tiles.filterMap (fun x => resolveTile st.cache cfg x)).foldl
          (fun r p => bump (bump r (dataCacheKey cfg p.2.2))
            (quadCacheKey cfg p.1 MAX_DEPTH)) st.reg⟩ : ClientState).cache
        cfg t (List.range (MAX_DEPTH + 1)) = some (root, idx, h) := hres
    have hev : resolveTile (evict (⟨st.cache,
        (tiles.filterMap (fun x => resolveTile st.cache cfg x)).foldl
          (fun r p => bump (bump r (dataCacheKey cfg p.2.2))
            (quadCacheKey cfg p.1 MAX_DEPTH)) st.reg⟩ : ClientState)
        now).cache cfg t = some (root, idx, h) :=
      resolveTileAux_evict _ now cfg t (List.range (MAX_DEPTH + 1))
        root idx h hres2 hq
    unfold isCachedTile
    simp only [hev]
    rw [evict_cache_protected _ now _ hb]
    exact hblob
  · unfold evict
    dsimp only
    rw [hk]
    dsimp only
    rw [if_pos ⟨hexp, hz⟩]

/-- Concrete client configuration for the TTL-bypass scenario. -/
def cfg5W : ClientConfig := ⟨"hrn:here:c5", "lay", 7⟩

/-- Concrete quad-tree covering the protected tile. -/
def idx5W : QuadTreeIndex := build ⟨0, 0, 0⟩ 4 [⟨⟨4, 5, 9⟩, "h1", 7⟩]

/-- Concrete state: quad-tree, a protected tile blob and a stray expired
blob, all with expiry 100, empty registry. -/
def st5W : ClientState :=
  ⟨fun k =>
    if k = quadCacheKey cfg5W ⟨0, 0, 0⟩ MAX_DEPTH then
      some ⟨CacheVal.quadBuf idx5W.raw, 100⟩
    else if k = dataCacheKey cfg5W "h1" then some ⟨CacheVal.blob [1], 100⟩
    else if k = dataCacheKey cfg5W "h2" then some ⟨CacheVal.blob [2], 100⟩
    else none, []⟩

theorem ttl_protected_keys_survive_witness :
    isCachedTile (evict (protect cfg5W st5W [⟨4, 5, 9⟩]).2 200) cfg5W
      ⟨4, 5, 9⟩ = true :=
  (ttl_protected_keys_survive cfg5W st5W [⟨4, 5, 9⟩] 200 ⟨4, 5, 9⟩ ⟨0, 0, 0⟩
    idx5W "h1" (dataCacheKey cfg5W "h2") ⟨CacheVal.blob [2], 100⟩
    (by decide) (by decide) (by decide) (by decide) (by decide) rfl).2.2.1

/-! ### C6: protect target validity (§4.F) -/

/-- C6: protect resolves each tile from the cache only: a tile with no
cached covering quad-tree fails to protect and leaves the state unchanged,
while a tile whose covering quad-tree is cached is a valid protect target
even before its blob is fetched — protect returns true, IsCached stays
false until the blob is stored, and once stored the blob survives TTL
eviction. -/
theorem protect_target_validity (cfg : ClientConfig) (st : ClientState)
    (t0 t root : TileKey) (idx : QuadTreeIndex) (h : String)
    (now : Nat) (b : List Nat) (exp2 : Nat)
    (h0 : resolveTile st.cache cfg t0 = none)
    (hres : resolveTile st.cache cfg t = some (root, idx, h))
    (hnb : st.cache (dataCacheKey cfg h) = none) :
    protect cfg st [t0] = (false, st) ∧
    (protect cfg st [t]).1 = true ∧
    isCachedTile (protect cfg st [t]).2 cfg t = false ∧
    isCachedTile (evict (putBlob (protect cfg st [t]).2
      (dataCacheKey cfg h) b exp2) now) cfg t = true := by
  have hps : [t].filterMap (fun x => resolveTile st.cache cfg x) =
      [(root, idx, h)] := by
    simp [List.filterMap_cons, hres]
  have hprot : protect cfg st [t] = (true, (⟨st.cache,
      bump (bump st.reg (dataCacheKey cfg h))
        (quadCacheKey cfg root MAX_DEPTH)⟩ : ClientState)) := by
    unfold protect
    rw [hps]
    rfl
  refine ⟨?_, ?_, ?_, ?_⟩
  · unfold protect
    simp [List.filterMap_cons, h0]
  · rw [hprot]
  · rw [hprot]
    unfold isCachedTile
    have hres1 : resolveTile (⟨st.cache,
        bump (bump st.reg (dataCacheKey cfg h))
          (quadCacheKey cfg root MAX_DEPTH)⟩ : ClientState).cache cfg t =
        some (root, idx, h) := hres
    simp only [hres1]
    have : ((⟨st.cache,
        bump (bump st.reg (dataCacheKey cfg h))
          (quadCacheKey cfg root MAX_DEPTH)⟩ : ClientState).cache
        (dataCacheKey cfg h)) = none := hnb
    rw [this]
    rfl
  · rw [hprot]
    have hq : 1 ≤ countOf (bump (bump st.reg (dataCacheKey cfg h))
        (quadCacheKey cfg root MAX_DEPTH)) (quadCacheKey cfg root MAX_DEPTH) := by
      rw [countOf_bump_self]
      omega
    have hb : 1 ≤ countOf (bump (bump st.reg (dataCacheKey cfg h))
        (quadCacheKey cfg root MAX_DEPTH)) (dataCacheKey cfg h) := by
      rw [countOf_bump_other _
        (dataKey_ne_quadKey cfg cfg h root MAX_DEPTH), countOf_bump_self]
      omega
    have hresP : resolveTileAux (putBlob (⟨st.cache,
        bump (bump st.reg (dataCacheKey cfg h))
          (quadCacheKey cfg root MAX_DEPTH)⟩ : ClientState)
        (dataCacheKey cfg h) b exp2).cache cfg t
        (List.range (MAX_DEPTH + 1)) = some (root, idx, h) := by
      have hagree : ∀ d ∈ List.range (MAX_DEPTH + 1),
          (putBlob (⟨st.cache,
            bump (bump st.reg (dataCacheKey cfg h))
              (quadCacheKey cfg root MAX_DEPTH)⟩ : ClientState)
            (dataCacheKey cfg h) b exp2).cache
            (quadCacheKey cfg (t.ancestor d) MAX_DEPTH) =
          st.cache (quadCacheKey cfg (t.ancestor d) MAX_DEPTH) := by
        intro d _
        have hk : quadCacheKey cfg (t.ancestor d) MAX_DEPTH ≠
            dataCacheKey cfg h := fun he =>
          dataKey_ne_quadKey cfg cfg h (t.ancestor d) MAX_DEPTH he.symm
        unfold putBlob
        dsimp only
        rw [if_neg hk]
      exact (resolveTileAux_congr _ st.cache cfg t _ hagree).trans hres
    have hev : resolveTile (evict (putBlob (⟨st.cache,
        bump (bump st.reg (dataCacheKey cfg h))
          (quadCacheKey cfg root MAX_DEPTH)⟩ : ClientState)
        (dataCacheKey cfg h) b exp2) now).cache cfg t =
        some (root, idx, h) :=
      resolveTileAux_evict _ now cfg t (List.range (MAX_DEPTH + 1))
        root idx h hresP hq
    unfold isCachedTile
    simp only [hev]
    rw [evict_cache_protected _ now _ hb]
    unfold putBlob
    dsimp only
    rw [if_pos rfl]
    rfl

/-- Concrete client configuration for the protect-validity scenario. -/
def cfg6W : ClientConfig := ⟨"hrn:here:c6", "lay", 7⟩

/-- Concrete quad-tree covering only tile (4,5,9) with handle h1. -/
def idx6W : QuadTreeIndex := build ⟨0, 0, 0⟩ 4 [⟨⟨4, 5, 9⟩, "h1", 7⟩]

/-- Concrete state: only the quad-tree is cached, no blobs, empty
registry. -/
def st6W : ClientState :=
  ⟨fun k =>
    if k = quadCacheKey cfg6W ⟨0, 0, 0⟩ MAX_DEPTH then
      some ⟨CacheVal.quadBuf idx6W.raw, 100⟩
    else none, []⟩

theorem protect_target_validity_witness :
    protect cfg6W st6W [⟨4, 5, 10⟩] = (false, st6W) :=
  (protect_target_validity cfg6W st6W ⟨4, 5, 10⟩ ⟨4, 5, 9⟩ ⟨0, 0, 0⟩ idx6W
    "h1" 200 [9] 300 (by decide) (by decide) (by decide)).1

/-! ### C8-C10: PrefetchPartitions pipeline (§4.G) -/

/-- Modelled from the spec: client error codes surfaced by the read layer
(§7). -/
inductive ErrorCode
  | invalidArgument
  | badRequest
  | notFound
  | cancelled
  | unknown
  deriving DecidableEq, Repr

/-- An error result: code plus message. -/
structure ApiError where
  code : ErrorCode
  msg : String
  deriving DecidableEq, Repr

/-- One blob download interaction: success flag and transferred bytes. -/
structure BlobReply where
  success : Bool
  bytes : Nat
  deriving DecidableEq, Repr

/-- One partition-metadata batch interaction: fatal upstream error,
unparsable payload, or a decoded (partition id, data handle) list; every
case reports its transferred bytes. -/
inductive MetaReply
  | fatal (e : ApiError) (bytes : Nat)
  | parseFail (bytes : Nat)
  | ok (entries : List (String × String)) (bytes : Nat)
  deriving Repr

/-- The network stages PrefetchPartitions interacts with: latest-version
lookup, per-batch partition-metadata queries, per-handle blob
downloads. -/
structure PrefetchBackend where
  version : Except ApiError Nat
  versionBytes : Nat
  meta : List String → MetaReply
  blob : String → BlobReply

/-- Modelled from the spec: split the partition list into batches of at
most 100 IDs (§4.G step 3); fuel-based structural recursion. -/
def chunksAux : Nat → List String → List (List String)
  | 0, _ => []
  | _ + 1, [] => []
  | fuel + 1, x :: xs => ((x :: xs).take 100) :: chunksAux fuel ((x :: xs).drop 100)

/-- Batch split with sufficient fuel. -/
def chunks (xs : List String) : List (List String) :=
  chunksAux xs.length xs

/-- Modelled from the spec: fetch each batch's metadata; a fatal batch
aborts with its error, an unparsable batch aborts with
Unknown("Fail parsing response."); otherwise concatenate the decoded
entries and sum the transferred bytes. -/
def fetchMeta (bk : PrefetchBackend) :
    List (List String) → Except ApiError (List (String × String) × Nat)
  | [] => Except.ok ([], 0)
  | b :: bs =>
    match bk.meta b with
    | MetaReply.fatal e _ => Except.error e
    | MetaReply.parseFail _ =>
      Except.error ⟨ErrorCode.unknown, "Fail parsing response."⟩
    | MetaReply.ok entries by2 =>
      match fetchMeta bk bs with
      | Except.error e => Except.error e
      | Except.ok (rest, byr) => Except.ok (entries ++ rest, by2 + byr)

/-- Modelled from the spec: download every resolved partition's blob;
return the successfully downloaded partition ids, the bytes transferred
across all attempts (failed ones included), and the number of
attempts. -/
def fetchBlobs (bk : PrefetchBackend) :
    List (String × String) → List String × Nat × Nat
  | [] => ([], 0, 0)
  | e :: rest =>
    let r := fetchBlobs bk rest
    ((if (bk.blob e.2).success then e.1 :: r.1 else r.1),
      (bk.blob e.2).bytes + r.2.1, r.2.2 + 1)

/-- The observables of one PrefetchPartitions run: final result, byte
counter, progress totals, metadata batch sizes, and the partitions whose
blobs were stored in the cache. -/
structure PrefetchOutcome where
  result : Except ApiError (List String)
  bytes : Nat
  total : Nat
  prefetched : Nat
  metaQueries : List Nat
  cached : List String

/-- Modelled from the spec: the PrefetchPartitions pipeline (§4.G):
validate non-empty, resolve the latest version, batch the metadata
queries by 100, download each resolved blob, and aggregate — partial blob
failures are counted toward progress but omitted from the result; zero
successes yield Unknown("No partitions were prefetched."). -/
def prefetchPartitions (bk : PrefetchBackend) (ids : List String) :
    PrefetchOutcome :=
  if ids.isEmpty then
    ⟨Except.error ⟨ErrorCode.invalidArgument, "Empty partitions list"⟩,
      0, 0, 0, [], []⟩
  else
    match bk.version with
    | Except.error e => ⟨Except.error e, bk.versionBytes, ids.length, 0, [], []⟩
    | Except.ok _ =>
      match fetchMeta bk (chunks ids) with
      | Except.error e =>
        ⟨Except.error e, 0, ids.length, 0, (chunks ids).map List.length, []⟩
      | Except.ok (entries, mbytes) =>
        let r := fetchBlobs bk entries
        ⟨if r.1.isEmpty then
            Except.error ⟨ErrorCode.unknown, "No partitions were prefetched."⟩
          else Except.ok r.1,
          bk.versionBytes + mbytes + r.2.1, ids.length, r.2.2,
          (chunks ids).map List.length, r.1⟩

/-! ### Prefetch pipeline lemmas -/

theorem chunksAux_nilL (fuel : Nat) : chunksAux fuel [] = [] := by
  cases fuel <;> rfl

theorem chunksAux_flatten (fuel : Nat) :
    ∀ xs : List String, xs.length ≤ fuel → (chunksAux fuel xs).flatten = xs := by
  induction fuel with
  | zero =>
    intro xs hx
    have : xs = [] := List.eq_nil_of_length_eq_zero (Nat.le_zero.mp hx)
    rw [this]
    rfl
  | succ f ih =>
    intro xs hx
    cases xs with
    | nil => rfl
    | cons x t =>
      have hlen : ((x :: t).drop 100).length ≤ f := by
        rw [List.length_drop]
        simp only [List.length_cons] at hx ⊢
        omega
      simp only [chunksAux, List.flatten_cons, ih _ hlen,
        List.take_append_drop]

theorem chunks_flatten (xs : List String) : (chunks xs).flatten = xs :=
  chunksAux_flatten xs.length xs (le_refl _)

theorem chunksAux_le (fuel : Nat) :
    ∀ xs c, c ∈ chunksAux fuel xs → c.length ≤ 100 := by
  induction fuel with
  | zero => intro xs c hc; cases hc
  | succ f ih =>
    intro xs c hc
    cases xs with
    | nil => cases hc
    | cons x t =>
      simp only [chunksAux] at hc
      rcases List.mem_cons.mp hc with h | h
      · rw [h, List.length_take]
        exact min_le_left _ _
      · exact ih _ _ h

theorem chunks_le (xs : List String) (c : List String) (hc : c ∈ chunks xs) :
    c.length ≤ 100 :=
  chunksAux_le xs.length xs c hc

theorem chunks_len_200 (xs : List String) (h : xs.length = 200) :
    (chunks xs).map List.length = [100, 100] := by
  unfold chunks
  rw [h]
  cases xs with
  | nil => cases h
  | cons x t =>
    have hd : ((x :: t).drop 100).length = 100 := by
      rw [List.length_drop, h]
    cases hdc : (x :: t).drop 100 with
    | nil => rw [hdc] at hd; cases hd
    | cons y t2 =>
      have hd2 : ((y :: t2).drop 100).length = 0 := by
        rw [List.length_drop]
        rw [hdc] at hd
        omega
      have hnil : (y :: t2).drop 100 = [] :=
        List.eq_nil_of_length_eq_zero hd2
      simp only [chunksAux, hdc, hnil, chunksAux_nilL, List.map_cons,
        List.map_nil, List.length_take, h]
      rw [hdc] at hd
      rw [hd]
      decide

theorem fetchMeta_ok (bk : PrefetchBackend) (hf : String → String)
    (mb : List String → Nat) :
    ∀ bs : List (List String),
    (∀ b ∈ bs, bk.meta b = MetaReply.ok (b.map (fun p => (p, hf p))) (mb b)) →
    fetchMeta bk bs =
      Except.ok (bs.flatten.map (fun p => (p, hf p)), (bs.map mb).sum) := by
  intro bs
  induction bs with
  | nil => intro hm; simp [fetchMeta]
  | cons b bs ih =>
    intro hm
    have hb := hm b (List.mem_cons_self _ _)
    have hrest := ih (fun x hx => hm x (List.mem_cons_of_mem _ hx))
    simp [fetchMeta, hb, hrest]

theorem fetchMeta_fatal (bk : PrefetchBackend) (b : List String)
    (bs : List (List String)) (e : ApiError) (n : Nat)
    (h : bk.meta b = MetaReply.fatal e n) :
    fetchMeta bk (b :: bs) = Except.error e := by
  simp [fetchMeta, h]

theorem fetchMeta_parse_fail (bk : PrefetchBackend) (b : List String)
    (bs : List (List String)) (n : Nat)
    (h : bk.meta b = MetaReply.parseFail n) :
    fetchMeta bk (b :: bs) =
      Except.error ⟨ErrorCode.unknown, "Fail parsing response."⟩ := by
  simp [fetchMeta, h]

theorem fetchBlobs_spec (bk : PrefetchBackend) :
    ∀ es : List (String × String),
    fetchBlobs bk es =
      ((es.filter (fun e => (bk.blob e.2).success)).map Prod.fst,
        (es.map (fun e => (bk.blob e.2).bytes)).sum, es.length) := by
  intro es
  induction es with
  | nil => rfl
  | cons e rest ih =>
    by_cases hs : (bk.blob e.2).success = true
    · simp [fetchBlobs, ih, List.filter_cons, hs]
    · simp only [Bool.not_eq_true] at hs
      simp [fetchBlobs, ih, List.filter_cons, hs]

theorem prefetch_ok_pipeline (bk : PrefetchBackend) (ids : List String)
    (v : Nat) (hf : String → String) (mb : List String → Nat)
    (hne : ids ≠ [])
    (hv : bk.version = Except.ok v)
    (hmeta : ∀ b, bk.meta b =
      MetaReply.ok (b.map (fun p => (p, hf p))) (mb b)) :
    prefetchPartitions bk ids =
      ⟨if (ids.filter (fun p => (bk.blob (hf p)).success)).isEmpty then
          Except.error ⟨ErrorCode.unknown, "No partitions were prefetched."⟩
        else Except.ok (ids.filter (fun p => (bk.blob (hf p)).success)),
        bk.versionBytes + ((chunks ids).map mb).sum +
          (ids.map (fun p => (bk.blob (hf p)).bytes)).sum,
        ids.length, ids.length, (chunks ids).map List.length,
        ids.filter (fun p => (bk.blob (hf p)).success)⟩ := by
  have hE : ids.isEmpty = false := by
    cases ids with
    | nil => cases hne rfl
    | cons x t => rfl
  have hm := fetchMeta_ok bk hf mb (chunks ids) (fun b _ => hmeta b)
  rw [chunks_flatten] at hm
  unfold prefetchPartitions
  simp only [hE, Bool.false_eq_true, if_false, hv, hm, fetchBlobs_spec,
    List.filter_map, List.map_map, List.length_map]
  simp [Function.comp_def]

/-- C8: for a non-empty prefetch whose metadata resolves every requested
partition, progress reports prefetched = total = N; the byte counter sums
the bytes of every HTTP interaction, failed blob downloads included; when
at least one blob download succeeds the result (and the cached set) is
exactly the successfully downloaded partitions, and when all fail the
result is Unknown("No partitions were prefetched."). -/
theorem prefetch_partial_failure (bk : PrefetchBackend) (ids : List String)
    (v : Nat) (hf : String → String) (mb : List String → Nat)
    (hne : ids ≠ [])
    (hv : bk.version = Except.ok v)
    (hmeta : ∀ b, bk.meta b =
      MetaReply.ok (b.map (fun p => (p, hf p))) (mb b)) :
    (prefetchPartitions bk ids).total = ids.length ∧
    (prefetchPartitions bk ids).prefetched = ids.length ∧
    (prefetchPartitions bk ids).bytes =
      bk.versionBytes + ((chunks ids).map mb).sum +
        (ids.map (fun p => (bk.blob (hf p)).bytes)).sum ∧
    (ids.any (fun p => (bk.blob (hf p)).success) = true →
      (prefetchPartitions bk ids).result =
        Except.ok (ids.filter (fun p => (bk.blob (hf p)).success)) ∧
      (prefetchPartitions bk ids).cached =
        ids.filter (fun p => (bk.blob (hf p)).success)) ∧
    ((∀ p ∈ ids, (bk.blob (hf p)).success = false) →
      (prefetchPartitions bk ids).result =
        Except.error ⟨ErrorCode.unknown, "No partitions were prefetched."⟩) := by
  have hp := prefetch_ok_pipeline bk ids v hf mb hne hv hmeta
  rw [hp]
  refine ⟨rfl, rfl, rfl, ?_, ?_⟩
  · intro hany
    simp only [List.any_eq_true] at hany
    obtain ⟨p, hpmem, hps⟩ := hany
    have hmem : p ∈ ids.filter (fun q => (bk.blob (hf q)).success) :=
      List.mem_filter.mpr ⟨hpmem, hps⟩
    have hie : (ids.filter (fun q => (bk.blob (hf q)).success)).isEmpty =
        false := by
      cases hc : ids.filter (fun q => (bk.blob (hf q)).success) with
      | nil => rw [hc] at hmem; cases hmem
      | cons a l => rfl
    simp only [hie, Bool.false_eq_true, if_false]
    constructor <;> trivial
  · intro hall
    have hnilf : ids.filter (fun q => (bk.blob (hf q)).success) = [] := by
      rw [List.filter_eq_nil_iff]
      intro a ha
      simp [hall a ha]
    simp only [hnilf]
    rfl

/-- Handle naming for the partial-failure scenario. -/
def hf8W (p : String) : String := String.append "h" p

/-- Concrete backend: five partitions, only handle h0 downloads
successfully; every interaction reports its bytes. -/
def bk8W : PrefetchBackend :=
  ⟨Except.ok 4, 2, fun b => MetaReply.ok (b.map (fun p => (p, hf8W p))) 10,
    fun h => if h = "h0" then ⟨true, 5⟩ else ⟨false, 1⟩⟩

theorem prefetch_partial_failure_witness :
    (prefetchPartitions bk8W ["0", "1", "2", "3", "4"]).prefetched = 5 ∧
    (prefetchPartitions bk8W ["0", "1", "2", "3", "4"]).result =
      Except.ok ["0"] ∧
    (prefetchPartitions bk8W ["0", "1", "2", "3", "4"]).bytes = 21 := by
  have h := prefetch_partial_failure bk8W ["0", "1", "2", "3", "4"] 4 hf8W
    (fun _ => 10) (by decide) rfl (fun b => rfl)
  exact ⟨h.2.1, (h.2.2.2.1 (by decide)).1, h.2.2.1⟩

/-- C9: an empty partition list fails with InvalidArgument; a fatal
latest-version failure or a fatal partition-metadata failure aborts the
whole operation surfacing that error, and an unparsable metadata response
yields Unknown("Fail parsing response."). -/
theorem prefetch_validation_fatal (bk0 bkv bkm bkp : PrefetchBackend)
    (ids : List String) (e ef : ApiError) (v v2 : Nat)
    (mb mb2 : List String → Nat)
    (hne : ids ≠ [])
    (hv : bkv.version = Except.error e)
    (hmv : bkm.version = Except.ok v)
    (hmm : ∀ b, bkm.meta b = MetaReply.fatal ef (mb b))
    (hpv : bkp.version = Except.ok v2)
    (hpm : ∀ b, bkp.meta b = MetaReply.parseFail (mb2 b)) :
    (prefetchPartitions bk0 []).result =
      Except.error ⟨ErrorCode.invalidArgument, "Empty partitions list"⟩ ∧
    (prefetchPartitions bkv ids).result = Except.error e ∧
    (prefetchPartitions bkm ids).result = Except.error ef ∧
    (prefetchPartitions bkp ids).result =
      Except.error ⟨ErrorCode.unknown, "Fail parsing response."⟩ := by
  have hE : ids.isEmpty = false := by
    cases ids with
    | nil => cases hne rfl
    | cons x t => rfl
  obtain ⟨b, bs, hcb⟩ : ∃ b bs, chunks ids = b :: bs := by
    cases ids with
    | nil => cases hne rfl
    | cons x t => exact ⟨_, _, rfl⟩
  refine ⟨rfl, ?_, ?_, ?_⟩
  · unfold prefetchPartitions
    simp only [hE, Bool.false_eq_true, if_false, hv]
  · unfold prefetchPartitions
    simp only [hE, Bool.false_eq_true, if_false, hmv, hcb,
      fetchMeta_fatal bkm b bs ef (mb b) (hmm b)]
  · unfold prefetchPartitions
    simp only [hE, Bool.false_eq_true, if_false, hpv, hcb,
      fetchMeta_parse_fail bkp b bs (mb2 b) (hpm b)]

/-- Backend whose latest-version fetch fails with BadRequest. -/
def bk9v : PrefetchBackend :=
  ⟨Except.error ⟨ErrorCode.badRequest, "Bad request"⟩, 1,
    fun b => MetaReply.parseFail 0, fun h => ⟨false, 0⟩⟩

/-- Backend whose metadata fetch fails fatally with BadRequest. -/
def bk9m : PrefetchBackend :=
  ⟨Except.ok 4, 1,
    fun b => MetaReply.fatal ⟨ErrorCode.badRequest, "Bad request"⟩ 0,
    fun h => ⟨false, 0⟩⟩

/-- Backend whose metadata response does not parse. -/
def bk9p : PrefetchBackend :=
  ⟨Except.ok 4, 1, fun b => MetaReply.parseFail 0, fun h => ⟨false, 0⟩⟩

theorem prefetch_validation_fatal_witness :
    (prefetchPartitions bk9v []).result =
      Except.error ⟨ErrorCode.invalidArgument, "Empty partitions list"⟩ ∧
    (prefetchPartitions bk9v ["269"]).result =
      Except.error ⟨ErrorCode.badRequest, "Bad request"⟩ ∧
    (prefetchPartitions bk9m ["269"]).result =
      Except.error ⟨ErrorCode.badRequest, "Bad request"⟩ ∧
    (prefetchPartitions bk9p ["269"]).result =
      Except.error ⟨ErrorCode.unknown, "Fail parsing response."⟩ :=
  prefetch_validation_fatal bk9v bk9v bk9m bk9p ["269"]
    ⟨ErrorCode.badRequest, "Bad request"⟩ ⟨ErrorCode.badRequest, "Bad request"⟩
    4 4 (fun b => 0) (fun b => 0) (by decide) rfl rfl (fun b => rfl) rfl
    (fun b => rfl)

/-- C10: for a 200-partition request the metadata is fetched in exactly
two batches of 100 IDs, every metadata batch holds at most 100 IDs, and
when every blob download succeeds the result contains all requested
partitions, each of them cached. -/
theorem prefetch_metadata_batching (bk : PrefetchBackend) (ids : List String)
    (v : Nat) (hf : String → String) (mb : List String → Nat)
    (hlen : ids.length = 200)
    (hv : bk.version = Except.ok v)
    (hmeta : ∀ b, bk.meta b =
      MetaReply.ok (b.map (fun p => (p, hf p))) (mb b))
    (hall : ∀ p ∈ ids, (bk.blob (hf p)).success = true) :
    (prefetchPartitions bk ids).metaQueries = [100, 100] ∧
    (∀ q ∈ (prefetchPartitions bk ids).metaQueries, q ≤ 100) ∧
    (prefetchPartitions bk ids).result = Except.ok ids ∧
    (prefetchPartitions bk ids).cached = ids := by
  have hne : ids ≠ [] := by
    intro h
    rw [h] at hlen
    cases hlen
  have hE : ids.isEmpty = false := by
    cases ids with
    | nil => cases hne rfl
    | cons x t => rfl
  have hp := prefetch_ok_pipeline bk ids v hf mb hne hv hmeta
  have hfid : ids.filter (fun p => (bk.blob (hf p)).success) = ids :=
    List.filter_eq_self.mpr hall
  rw [hp]
  refine ⟨chunks_len_200 ids hlen, ?_, ?_, ?_⟩
  · intro q hq
    obtain ⟨c, hc, rfl⟩ := List.mem_map.mp hq
    exact chunks_le ids c hc
  · simp only [hfid, hE, Bool.false_eq_true, if_false]
  · simp only [hfid]

/-- A request of 200 distinct partition ids. -/
def ids10W : List String := (List.range 200).map (fun n => toString n)

/-- Backend resolving every partition to itself as handle; every blob
download succeeds. -/
def bk10W : PrefetchBackend :=
  ⟨Except.ok 4, 0, fun b => MetaReply.ok (b.map (fun p => (p, p))) 1,
    fun h => ⟨true, 1⟩⟩

theorem prefetch_metadata_batching_witness :
    (prefetchPartitions bk10W ids10W).metaQueries = [100, 100] :=
  (prefetch_metadata_batching bk10W ids10W 4 (fun p => p) (fun b => 1)
    (by simp [ids10W]) rfl (fun b => rfl) (fun p hp => rfl)).1
